import Mathlib

/-!
# The chat server of `server/graphql.go`: subscriptions, fan-out and the message log

A shallow embedding of `GraphQLServer` (file `src/server/graphql.go`) and of the
resolvers `Messages`, `Users`, `PostMessage`, `createUser`, `MessagePosted` and
`UserJoined`, followed by theorems about them.

Modelling conventions.

* A resolver call runs from its first to its last statement.  A channel send
  `ch <- v` buffers `v` when the channel has room.  When the buffer is full the
  send waits for the consumer of that channel: in the runs in which the consumer
  receives, it takes the oldest element, `v` is buffered and the call goes on; in
  the runs in which it never receives (its connection is gone while the cleanup
  goroutine waits for the mutex, say) the call stays parked on the send with
  `s.mutex` held, which is `Outcome.blocked`.  Which of the two happens is an
  input of every loop (`LoopRun.receives`).  All other interleavings of
  goroutines are covered by the relation `Step`.
* Channels are objects of the Go heap.  The server state carries that heap as two
  lists (`msgChans`, `usrChans`); a channel value is its index in the list, and
  `make` appends a new object.
* A Go map is a list of key/value pairs with pairwise different keys.  The order
  in which `range` visits a map is not specified by Go; every loop takes that
  order as an input (`LoopRun.visit`).
* Everything the outside world decides is an input of the call: whether a Redis
  command fails, the identifier `ksuid.New()` returns, the clock, the iteration
  orders, what the consumers do, and the JSON codec (`Codec`).
-/

namespace Chat

/-! ## Data model -/

/-- A Go `error`, by its text. -/
abbrev Error := String

/-- Modelled from the spec: the generated struct `Message` (its declaration is in
the generated models file, which is not among the sources).  The spec lists the
fields `id`, `createdAt`, `text`, `user`; `PostMessage` fills `ID`, `CreatedAt`,
`Text`, `User`.  An instant of `time.Time` is identified by its ISO-8601 UTC
text. -/
structure Message where
  ID : String
  CreatedAt : String
  Text : String
  User : String
deriving DecidableEq, Repr

/-- The value of `var m Message`: every field at its zero value. -/
def Message.zero : Message :=
  { ID := "", CreatedAt := "0001-01-01T00:00:00Z", Text := "", User := "" }

/-- The functions of `encoding/json` the server calls, specialised to `Message`.
`Marshal m` is the text of `json.Marshal(m)` (its error is discarded by the code).
`Unmarshal data m` is `json.Unmarshal([]byte(data), &m)`: the value `m` holds
afterwards, and the error returned (`none` for `nil`). -/
structure Codec where
  Marshal : Message → String
  Unmarshal : String → Message → Message × Option Error

/-- A buffered Go channel: its capacity and the buffered elements, oldest first. -/
structure Chan (α : Type) where
  cap : Nat
  buf : List α
deriving DecidableEq, Repr

/-- The channel `make(chan T, n)`. -/
def Chan.make {α : Type} (n : Nat) : Chan α :=
  { cap := n, buf := [] }

/-- The send `ch <- v` on a channel with room: the element is buffered (`some`).
On a full channel the send has to wait (`none`). -/
def Chan.send {α : Type} (c : Chan α) (v : α) : Option (Chan α) :=
  if c.buf.length < c.cap then some { c with buf := c.buf ++ [v] } else none

/-- The receive `<-ch` of a consumer: the oldest buffered element, if any. -/
def Chan.recv {α : Type} (c : Chan α) : Option (α × Chan α) :=
  match c.buf with
  | [] => none
  | v :: rest => some (v, { c with buf := rest })

/-- The send `ch <- v` that waited on a full channel, once the consumer has
received: the consumer took the oldest element, then `v` is buffered. -/
def Chan.sendAfterRecv {α : Type} (c : Chan α) (v : α) : Option (Chan α) :=
  match c.recv with
  | none => none
  | some (_, c1) => c1.send v

/-- A channel is full when a send to it has to wait. -/
def Chan.full {α : Type} (c : Chan α) : Prop := ¬ c.buf.length < c.cap

instance {α : Type} (c : Chan α) : Decidable c.full := by
  unfold Chan.full; exact inferInstance

/-- A Go `map[string]chan T`: pairs of a key and a channel (index in the heap). -/
abbrev GoMap := List (String × Nat)

/-- The lookup `m[k]`. -/
def mapGet (m : GoMap) (k : String) : Option Nat :=
  match m with
  | [] => none
  | (k', v) :: rest => if k' = k then some v else mapGet rest k

/-- The statement `delete(m, k)`. -/
def mapDelete (m : GoMap) (k : String) : GoMap :=
  m.filter (fun e => decide (e.1 ≠ k))

/-- The assignment `m[k] = v`. -/
def mapSet (m : GoMap) (k : String) (v : Nat) : GoMap :=
  (k, v) :: mapDelete m k

/-- How one `range` loop over a map of channels runs: the order in which it visits
the entries (any rearrangement of them), and for every channel whether its consumer
receives when a send waits on it. -/
structure LoopRun where
  visit : GoMap → GoMap
  perm : ∀ m, (visit m).Perm m
  receives : Nat → Bool

/-- The run that visits the entries as they are listed; no consumer receives. -/
def LoopRun.listed : LoopRun :=
  { visit := fun m => m, perm := fun m => List.Perm.refl m, receives := fun _ => false }

/-- The run that visits the entries last to first; no consumer receives. -/
def LoopRun.reversed : LoopRun :=
  { visit := fun m => m.reverse, perm := fun m => List.reverse_perm m,
    receives := fun _ => false }

/-- The run that visits the entries as they are listed; every consumer receives
when a send waits on its channel. -/
def LoopRun.live : LoopRun :=
  { visit := fun m => m, perm := fun m => List.Perm.refl m, receives := fun _ => true }

/-- The two Redis keys the server uses: the list `messages` (head first) and the
set `users` (its members, each once). -/
structure Redis where
  messages : List String
  users : List String
deriving DecidableEq, Repr

/-- The command `LPUSH messages v`: `err` is the failure the client reports, if
any; on success `v` becomes the head of the list. -/
def Redis.LPush (r : Redis) (err : Option Error) (v : String) : Except Error Redis :=
  match err with
  | some e => .error e
  | none => .ok { r with messages := v :: r.messages }

/-- The command `LRANGE messages 0 -1`: the whole list, head first. -/
def Redis.LRange (r : Redis) (err : Option Error) : Except Error (List String) :=
  match err with
  | some e => .error e
  | none => .ok r.messages

/-- The command `SADD users member`: adds the member unless it is one already. -/
def Redis.SAdd (r : Redis) (err : Option Error) (member : String) : Except Error Redis :=
  match err with
  | some e => .error e
  | none => .ok (if member ∈ r.users then r else { r with users := member :: r.users })

/-- The command `SMEMBERS users`. -/
def Redis.SMembers (r : Redis) (err : Option Error) : Except Error (List String) :=
  match err with
  | some e => .error e
  | none => .ok r.users

deriving instance DecidableEq for Except

/-- The struct `GraphQLServer` together with the channel objects its maps refer to.
The mutex is not a field: every loop runs with it held, so no other resolver changes
a map while a loop runs; consumers receive without it. -/
structure GraphQLServer where
  redisClient : Redis
  messageChannels : GoMap
  userChannels : GoMap
  msgChans : List (Chan Message)
  usrChans : List (Chan String)
deriving DecidableEq, Repr

/-- The server `NewGraphQlServer` returns once Redis answers the ping: both maps
empty.  `r` is what the store holds at that time. -/
def NewGraphQlServer (r : Redis) : GraphQLServer :=
  { redisClient := r, messageChannels := [], userChannels := [],
    msgChans := [], usrChans := [] }

/-- How a resolver call ends: it returns a value or an error, or it stays parked on
a channel send whose consumer never receives. -/
inductive Outcome (α : Type) where
  | returned (val : Except Error α) (s : GraphQLServer)
  | blocked (s : GraphQLServer)
deriving DecidableEq

/-- The server state a call leaves behind. -/
def Outcome.state {α : Type} : Outcome α → GraphQLServer
  | .returned _ s => s
  | .blocked s => s

/-- How a broadcast loop ends, with the channel heap it leaves. -/
inductive Sent (α : Type) where
  | done (heap : List (Chan α))
  | blocked (heap : List (Chan α))
deriving DecidableEq, Repr

/-- The channel heap a broadcast loop leaves behind. -/
def Sent.heap {α : Type} : Sent α → List (Chan α)
  | .done h => h
  | .blocked h => h

/-! ## The resolvers -/

/-- The loop `for _, ch := range m { ch <- v }` over the entries `entries` of the
map in the order of the visit.  A send to a channel with room buffers `v`.  A send
to a full channel waits: if the consumer of the channel receives, the send completes
and the loop goes on; if not, the loop stays parked there.  A send to a `nil`
channel, or to a channel that is full again after the consumer received (neither
occurs on a server that can be reached), stays parked too. -/
def rangeSend {α : Type} (entries : GoMap) (receives : Nat → Bool) (heap : List (Chan α))
    (v : α) : Sent α :=
  match entries with
  | [] => .done heap
  | (_, ch) :: rest =>
    match heap[ch]? with
    | none => .blocked heap
    | some c =>
      match c.send v with
      | some c' => rangeSend rest receives (heap.set ch c') v
      | none =>
        if receives ch then
          match c.sendAfterRecv v with
          | some c' => rangeSend rest receives (heap.set ch c') v
          | none => .blocked heap
        else .blocked heap

/-- The method `createUser` (lines 148-158). -/
def createUser (sadd : Option Error) (o : LoopRun) (s : GraphQLServer) (user : String) :
    Outcome Unit :=
  match s.redisClient.SAdd sadd user with
  | .error err => .returned (.error err) s
  | .ok r =>
    match rangeSend (o.visit s.userChannels) o.receives s.usrChans user with
    | .blocked h => .blocked { s with redisClient := r, usrChans := h }
    | .done h => .returned (.ok ()) { s with redisClient := r, usrChans := h }

/-- What the outside world supplies to one `PostMessage` call. -/
structure PostEnv where
  sadd : Option Error
  order1 : LoopRun
  order2 : LoopRun
  id : String
  now : String
  lpush : Option Error
  order3 : LoopRun

/-- The resolver `PostMessage` (lines 116-146). -/
def PostMessage (c : Codec) (env : PostEnv) (s : GraphQLServer) (user text : String) :
    Outcome Message :=
  match createUser env.sadd env.order1 s user with
  | .blocked s1 => .blocked s1
  | .returned (.error err) s1 => .returned (.error err) s1
  | .returned (.ok ()) s1 =>
    match rangeSend (env.order2.visit s1.userChannels) env.order2.receives s1.usrChans user with
    | .blocked h => .blocked { s1 with usrChans := h }
    | .done h =>
      let s2 := { s1 with usrChans := h }
      let m : Message := { ID := env.id, CreatedAt := env.now, Text := text, User := user }
      let msg := c.Marshal m
      match s2.redisClient.LPush env.lpush msg with
      | .error err => .returned (.error err) s2
      | .ok r =>
        let s3 := { s2 with redisClient := r }
        match rangeSend (env.order3.visit s3.messageChannels) env.order3.receives s3.msgChans m with
        | .blocked h' => .blocked { s3 with msgChans := h' }
        | .done h' => .returned (.ok m) { s3 with msgChans := h' }

/-- The loop body of `Messages` (lines 89-93), over the entries still to read. -/
def decodeLoop (c : Codec) (res : List String) (messages : List Message) : List Message :=
  match res with
  | [] => messages
  | msg :: rest => decodeLoop c rest (messages ++ [(c.Unmarshal msg Message.zero).1])

/-- The resolver `Messages` (lines 75-96). -/
def Messages (c : Codec) (lrange : Option Error) (s : GraphQLServer) :
    Except Error (List Message) :=
  match s.redisClient.LRange lrange with
  | .error err => .error err
  | .ok res => .ok (decodeLoop c res [])

/-- The resolver `Users` (lines 99-111). -/
def Users (smembers : Option Error) (s : GraphQLServer) : Except Error (List String) :=
  s.redisClient.SMembers smembers

/-- The resolver `MessagePosted` (lines 163-182) up to its `return`; the goroutine
it starts is `MessagePosted_cleanup`. -/
def MessagePosted (sadd : Option Error) (o : LoopRun) (s : GraphQLServer) (user : String) :
    Outcome Nat :=
  match createUser sadd o s user with
  | .blocked s1 => .blocked s1
  | .returned (.error err) s1 => .returned (.error err) s1
  | .returned (.ok ()) s1 =>
    let messages := s1.msgChans.length
    .returned (.ok messages)
      { s1 with msgChans := s1.msgChans ++ [Chan.make 1],
                messageChannels := mapSet s1.messageChannels user messages }

/-- The goroutine of `MessagePosted` (lines 174-179) once `ctx.Done()` has fired. -/
def MessagePosted_cleanup (s : GraphQLServer) (user : String) : GraphQLServer :=
  { s with messageChannels := mapDelete s.messageChannels user }

/-- The resolver `UserJoined` (lines 185-204) up to its `return`; the goroutine it
starts is `UserJoined_cleanup`. -/
def UserJoined (sadd : Option Error) (o : LoopRun) (s : GraphQLServer) (user : String) :
    Outcome Nat :=
  match createUser sadd o s user with
  | .blocked s1 => .blocked s1
  | .returned (.error err) s1 => .returned (.error err) s1
  | .returned (.ok ()) s1 =>
    let users := s1.usrChans.length
    .returned (.ok users)
      { s1 with usrChans := s1.usrChans ++ [Chan.make 1],
                userChannels := mapSet s1.userChannels user users }

/-- The goroutine of `UserJoined` (lines 196-201) once `ctx.Done()` has fired. -/
def UserJoined_cleanup (s : GraphQLServer) (user : String) : GraphQLServer :=
  { s with userChannels := mapDelete s.userChannels user }

/-! ## Consumers and the stand-in codec -/

/-- A consumer receives from the message channel `ch`. -/
def recvMessage (s : GraphQLServer) (ch : Nat) : Option (Message × GraphQLServer) :=
  match s.msgChans[ch]? with
  | none => none
  | some c =>
    match c.recv with
    | none => none
    | some (v, c') => some (v, { s with msgChans := s.msgChans.set ch c' })

/-- A consumer receives from the user-joined channel `ch`. -/
def recvUser (s : GraphQLServer) (ch : Nat) : Option (String × GraphQLServer) :=
  match s.usrChans[ch]? with
  | none => none
  | some c =>
    match c.recv with
    | none => none
    | some (v, c') => some (v, { s with usrChans := s.usrChans.set ch c' })

/-- Removes the literal `lit` from the front of a text. -/
def dropLit (lit : List Char) (s : List Char) : Option (List Char) :=
  match lit, s with
  | [], s => some s
  | _ :: _, [] => none
  | p :: ps, x :: xs => if p = x then dropLit ps xs else none

/-- Reads the body of a JSON string up to its closing quote; no escapes. -/
def readString (s : List Char) : Option (List Char × List Char) :=
  match s with
  | [] => none
  | x :: xs =>
    if x = Char.ofNat 34 then some ([], xs)
    else
      match readString xs with
      | none => none
      | some (body, rest) => some (x :: body, rest)

/-- The JSON text of a message whose strings need no escaping. -/
def plainMarshal (m : Message) : String :=
  "\x7b\"id\":\"" ++ m.ID ++ "\",\"createdAt\":\"" ++ m.CreatedAt ++
    "\",\"text\":\"" ++ m.Text ++ "\",\"user\":\"" ++ m.User ++ "\"\x7d"

/-- Reads back a text written by `plainMarshal`. -/
def plainParse (data : List Char) : Option Message :=
  match dropLit "\x7b\"id\":\"".data data with
  | none => none
  | some r1 =>
    match readString r1 with
    | none => none
    | some (id, r2) =>
      match dropLit ",\"createdAt\":\"".data r2 with
      | none => none
      | some r3 =>
        match readString r3 with
        | none => none
        | some (createdAt, r4) =>
          match dropLit ",\"text\":\"".data r4 with
          | none => none
          | some r5 =>
            match readString r5 with
            | none => none
            | some (text, r6) =>
              match dropLit ",\"user\":\"".data r6 with
              | none => none
              | some r7 =>
                match readString r7 with
                | none => none
                | some (user, r8) =>
                  if r8 = "\x7d".data then
                    some { ID := String.mk id, CreatedAt := String.mk createdAt,
                           Text := String.mk text, User := String.mk user }
                  else none

/-- A stand-in for `encoding/json`, used to run the resolvers on concrete inputs.
It writes a message as the JSON object `encoding/json` writes when no string needs
escaping, and reads back exactly such texts.  Any other text is a decode error that
leaves the target as it was, which is what `json.Unmarshal` does with a text that
is not JSON at all. -/
def plainJSON : Codec :=
  { Marshal := plainMarshal,
    Unmarshal := fun data m =>
      match plainParse data.data with
      | some m' => (m', none)
      | none => (m, some "invalid JSON") }

/-! ## Well-formed registries and the steps of the system -/

/-- The registry as Go keeps it: in each map the keys are pairwise different, the
channels are pairwise different objects, and every channel is an allocated one. -/
structure WF (s : GraphQLServer) : Prop where
  msgKeys : (s.messageChannels.map Prod.fst).Nodup
  msgRefs : (s.messageChannels.map Prod.snd).Nodup
  msgValid : ∀ e ∈ s.messageChannels, e.2 < s.msgChans.length
  usrKeys : (s.userChannels.map Prod.fst).Nodup
  usrRefs : (s.userChannels.map Prod.snd).Nodup
  usrValid : ∀ e ∈ s.userChannels, e.2 < s.usrChans.length

/-- The channels as `make(chan T, 1)` and the Go runtime keep them: every allocated
channel has capacity 1 and holds at most one element. -/
structure Bounded (s : GraphQLServer) : Prop where
  msg : ∀ c ∈ s.msgChans, c.cap = 1 ∧ c.buf.length ≤ 1
  usr : ∀ c ∈ s.usrChans, c.cap = 1 ∧ c.buf.length ≤ 1

/-- One atomic step of the running system.  The resolvers are sequences of such
steps; steps of different goroutines may interleave. -/
inductive Step : GraphQLServer → GraphQLServer → Prop where
  | store (s : GraphQLServer) (r : Redis) : Step s { s with redisClient := r }
  | sendUser (s : GraphQLServer) (e : String × Nat) (c c' : Chan String) (v : String) :
      e ∈ s.userChannels → s.usrChans[e.2]? = some c → c.send v = some c' →
      Step s { s with usrChans := s.usrChans.set e.2 c' }
  | sendMessage (s : GraphQLServer) (e : String × Nat) (c c' : Chan Message) (v : Message) :
      e ∈ s.messageChannels → s.msgChans[e.2]? = some c → c.send v = some c' →
      Step s { s with msgChans := s.msgChans.set e.2 c' }
  | recvUser (s s' : GraphQLServer) (ch : Nat) (v : String) :
      recvUser s ch = some (v, s') → Step s s'
  | recvMessage (s s' : GraphQLServer) (ch : Nat) (v : Message) :
      recvMessage s ch = some (v, s') → Step s s'
  | registerMessage (s : GraphQLServer) (user : String) :
      Step s { s with msgChans := s.msgChans ++ [Chan.make 1],
                      messageChannels := mapSet s.messageChannels user s.msgChans.length }
  | registerUser (s : GraphQLServer) (user : String) :
      Step s { s with usrChans := s.usrChans ++ [Chan.make 1],
                      userChannels := mapSet s.userChannels user s.usrChans.length }
  | cleanupMessage (s : GraphQLServer) (user : String) : Step s (MessagePosted_cleanup s user)
  | cleanupUser (s : GraphQLServer) (user : String) : Step s (UserJoined_cleanup s user)

/-- Any number of steps. -/
def Steps : GraphQLServer → GraphQLServer → Prop := Relation.ReflTransGen Step

/-- The states a server can be in: those some run of steps leads to from the
server `NewGraphQlServer` returns. -/
def Reachable (s : GraphQLServer) : Prop := ∃ r, Steps (NewGraphQlServer r) s

/-- The buffer of the message channel `ch`. -/
def msgBuf (s : GraphQLServer) (ch : Nat) : Option (List Message) :=
  (s.msgChans[ch]?).map (fun c => c.buf)

/-- The buffer of the user-joined channel `ch`. -/
def usrBuf (s : GraphQLServer) (ch : Nat) : Option (List String) :=
  (s.usrChans[ch]?).map (fun c => c.buf)

/-! ## Concrete runs -/

/-- A store that holds nothing yet. -/
def emptyStore : Redis := { messages := [], users := [] }

/-- The inputs of a `PostMessage` call in which every store command succeeds, every
map is visited in listed order and no consumer receives during the call; `id` is the
identifier `ksuid` hands out. -/
def calmEnv (id : String) : PostEnv :=
  { sadd := none, order1 := LoopRun.listed, order2 := LoopRun.listed, id := id,
    now := "2019-05-01T10:00:00Z", lpush := none, order3 := LoopRun.listed }

/-- As `calmEnv`, but the message loop visits the map last entry first. -/
def calmEnvReversed (id : String) : PostEnv :=
  { calmEnv id with order3 := LoopRun.reversed }

/-- As `calmEnv`, but every consumer receives when a send waits on its channel. -/
def liveEnv (id : String) : PostEnv :=
  { calmEnv id with order1 := LoopRun.live, order2 := LoopRun.live, order3 := LoopRun.live }

/-- As `calmEnv`, but the consumers of the user-joined channels receive when a send
waits on their channel; the consumers of the message channels do not. -/
def watchersLiveEnv (id : String) : PostEnv :=
  { calmEnv id with order1 := LoopRun.live, order2 := LoopRun.live }

/-- As `liveEnv`, but `LPUSH` fails. -/
def lpushFailsLiveEnv (id : String) : PostEnv :=
  { liveEnv id with lpush := some "connection refused" }

/-- As `calmEnv`, but `LPUSH` fails. -/
def lpushFailsEnv (id : String) : PostEnv :=
  { calmEnv id with lpush := some "connection refused" }

/-- A new server on which bob has subscribed to messages. -/
def bobListens : GraphQLServer :=
  (MessagePosted none LoopRun.listed (NewGraphQlServer emptyStore) "bob").state

/-- As `bobListens`, and carol has subscribed to user-joined events. -/
def bobListensCarolWatches : GraphQLServer :=
  (UserJoined none LoopRun.listed bobListens "carol").state

/-- As `bobListensCarolWatches`, after alice posted a message that bob has not
received yet (carol's consumer received when alice's call waited on her channel). -/
def bobBehindCarolWatches : GraphQLServer :=
  (PostMessage plainJSON (liveEnv "id1") bobListensCarolWatches "alice" "yo").state

/-- As `bobListens`, after alice posted a message that bob has not received yet. -/
def bobBehind : GraphQLServer :=
  (PostMessage plainJSON (calmEnv "id1") bobListens "alice" "yo").state

/-- Carol and then bob subscribed to messages, dave posted, and only bob has
received the message: carol's channel still holds it. -/
def carolBehind : GraphQLServer :=
  let s1 := (MessagePosted none LoopRun.listed (NewGraphQlServer emptyStore) "carol").state
  let s2 := (MessagePosted none LoopRun.listed s1 "bob").state
  let s3 := (PostMessage plainJSON (calmEnv "id1") s2 "dave" "hi").state
  match recvMessage s3 1 with
  | some (_, s4) => s4
  | none => s3

/-- A new server on which carol has subscribed to user-joined events. -/
def carolWatches : GraphQLServer :=
  (UserJoined none LoopRun.listed (NewGraphQlServer emptyStore) "carol").state

/-- Bob subscribes to messages twice on `carolWatches`, carol's consumer receiving:
the states after the first and after the second call. -/
def bobTwice : GraphQLServer × GraphQLServer :=
  let s1 := (MessagePosted none LoopRun.live carolWatches "bob").state
  (s1, (MessagePosted none LoopRun.live s1 "bob").state)

/-- Dave subscribes to user-joined events twice on `carolWatches`, the consumers
receiving: the states after the first and after the second call. -/
def daveTwice : GraphQLServer × GraphQLServer :=
  let s1 := (UserJoined none LoopRun.live carolWatches "dave").state
  (s1, (UserJoined none LoopRun.live s1 "dave").state)

/-- Carol has subscribed to user-joined events on a server whose store already
knows alice. -/
def carolWatchesAliceKnown : GraphQLServer :=
  (UserJoined none LoopRun.listed
    (NewGraphQlServer { messages := [], users := ["alice"] }) "carol").state

/-- A server whose log holds, between two well-formed entries, one that is not
JSON. -/
def corruptLog : GraphQLServer :=
  NewGraphQlServer
    { messages :=
        [plainMarshal
            { ID := "id2", CreatedAt := "2019-05-01T10:00:05Z", Text := "hey", User := "bob" },
         "not json",
         plainMarshal
            { ID := "id1", CreatedAt := "2019-05-01T10:00:00Z", Text := "yo", User := "alice" }],
      users := ["bob", "alice"] }

/-- What the spec asks of `Messages`, in its words: the decoded messages of the
entries that parse, in log order; an entry that fails to decode is skipped. -/
def decodedEntries (c : Codec) (log : List String) : List Message :=
  log.filterMap (fun entry =>
    match c.Unmarshal entry Message.zero with
    | (m, none) => some m
    | (_, some _) => none)

/-! ## Go maps -/

theorem mem_mapDelete (m : GoMap) (k : String) (e : String × Nat) :
    e ∈ mapDelete m k ↔ e ∈ m ∧ e.1 ≠ k := by
  simp [mapDelete, List.mem_filter]

theorem mapGet_eq_none_iff (m : GoMap) (k : String) :
    mapGet m k = none ↔ ∀ e ∈ m, e.1 ≠ k := by
  induction m with
  | nil => simp [mapGet]
  | cons e rest ih =>
    obtain ⟨k', v⟩ := e
    by_cases h : k' = k
    · simp [mapGet, h]
    · simp [mapGet, h, ih]

theorem mapGet_mapDelete_self (m : GoMap) (k : String) : mapGet (mapDelete m k) k = none := by
  rw [mapGet_eq_none_iff]
  intro e he
  exact ((mem_mapDelete m k e).1 he).2

theorem mapGet_mapDelete_ne (m : GoMap) (k k' : String) (h : k' ≠ k) :
    mapGet (mapDelete m k) k' = mapGet m k' := by
  induction m with
  | nil => simp [mapDelete, mapGet]
  | cons e rest ih =>
    obtain ⟨k0, v⟩ := e
    by_cases h0 : k0 = k
    · subst h0
      have hne : ¬ k0 = k' := fun hh => h hh.symm
      have : mapDelete ((k0, v) :: rest) k0 = mapDelete rest k0 := by simp [mapDelete]
      rw [this, ih]
      simp [mapGet, hne]
    · have : mapDelete ((k0, v) :: rest) k = (k0, v) :: mapDelete rest k := by
        simp [mapDelete, h0]
      rw [this]
      by_cases h1 : k0 = k'
      · simp [mapGet, h1]
      · simp [mapGet, h1, ih]

theorem mapDelete_of_absent (m : GoMap) (k : String) (h : mapGet m k = none) :
    mapDelete m k = m := by
  rw [mapGet_eq_none_iff] at h
  unfold mapDelete
  rw [List.filter_eq_self]
  intro e he
  simpa using h e he

theorem mapGet_mapSet_self (m : GoMap) (k : String) (v : Nat) : mapGet (mapSet m k v) k = some v := by
  simp [mapSet, mapGet]

theorem mapGet_mapSet_ne (m : GoMap) (k k' : String) (v : Nat) (h : k' ≠ k) :
    mapGet (mapSet m k v) k' = mapGet m k' := by
  have hne : ¬ k = k' := fun hh => h hh.symm
  simp [mapSet, mapGet, hne, mapGet_mapDelete_ne m k k' h]

theorem mem_of_mapGet (m : GoMap) (k : String) (v : Nat) (h : mapGet m k = some v) :
    (k, v) ∈ m := by
  induction m with
  | nil => simp [mapGet] at h
  | cons e rest ih =>
    obtain ⟨k0, v0⟩ := e
    by_cases h0 : k0 = k
    · simp [mapGet, h0] at h
      simp [h0, h]
    · simp [mapGet, h0] at h
      exact List.mem_cons_of_mem _ (ih h)

theorem mapGet_of_mem (m : GoMap) (k : String) (v : Nat)
    (hk : (m.map Prod.fst).Nodup) (h : (k, v) ∈ m) : mapGet m k = some v := by
  induction m with
  | nil => simp at h
  | cons e rest ih =>
    obtain ⟨k0, v0⟩ := e
    simp only [List.map_cons, List.nodup_cons] at hk
    rcases List.mem_cons.1 h with h1 | h1
    · cases h1
      simp [mapGet]
    · have hne : ¬ k0 = k := by
        intro hh
        apply hk.1
        rw [hh]
        exact List.mem_map_of_mem Prod.fst h1
      simp [mapGet, hne, ih hk.2 h1]

theorem mapDelete_sublist (m : GoMap) (k : String) : (mapDelete m k).Sublist m :=
  List.filter_sublist m

/-! ## Broadcast loops -/

theorem rangeSend_cons_none {α : Type} (k : String) (ch : Nat) (rest : GoMap)
    (rcv : Nat → Bool) (h : List (Chan α)) (v : α) (hc : h[ch]? = none) :
    rangeSend ((k, ch) :: rest) rcv h v = .blocked h := by
  simp [rangeSend, hc]

theorem rangeSend_cons_parked {α : Type} (k : String) (ch : Nat) (rest : GoMap)
    (rcv : Nat → Bool) (h : List (Chan α)) (v : α) (c : Chan α) (hc : h[ch]? = some c)
    (hs : c.send v = none) (hr : rcv ch = false) :
    rangeSend ((k, ch) :: rest) rcv h v = .blocked h := by
  simp [rangeSend, hc, hs, hr]

theorem rangeSend_cons_received {α : Type} (k : String) (ch : Nat) (rest : GoMap)
    (rcv : Nat → Bool) (h : List (Chan α)) (v : α) (c c' : Chan α) (hc : h[ch]? = some c)
    (hs : c.send v = none) (hr : rcv ch = true) (hsr : c.sendAfterRecv v = some c') :
    rangeSend ((k, ch) :: rest) rcv h v = rangeSend rest rcv (h.set ch c') v := by
  simp [rangeSend, hc, hs, hr, hsr]

theorem rangeSend_cons_overfull {α : Type} (k : String) (ch : Nat) (rest : GoMap)
    (rcv : Nat → Bool) (h : List (Chan α)) (v : α) (c : Chan α) (hc : h[ch]? = some c)
    (hs : c.send v = none) (hsr : c.sendAfterRecv v = none) :
    rangeSend ((k, ch) :: rest) rcv h v = .blocked h := by
  cases hr : rcv ch <;> simp [rangeSend, hc, hs, hr, hsr]

theorem rangeSend_cons_sent {α : Type} (k : String) (ch : Nat) (rest : GoMap)
    (rcv : Nat → Bool) (h : List (Chan α)) (v : α) (c c' : Chan α) (hc : h[ch]? = some c)
    (hs : c.send v = some c') :
    rangeSend ((k, ch) :: rest) rcv h v = rangeSend rest rcv (h.set ch c') v := by
  simp [rangeSend, hc, hs]

theorem send_eq_some {α : Type} (c c' : Chan α) (v : α) (hs : c.send v = some c') :
    ¬ c.full ∧ c' = { c with buf := c.buf ++ [v] } := by
  unfold Chan.send at hs
  unfold Chan.full
  by_cases hlt : c.buf.length < c.cap
  · simp [hlt] at hs
    exact ⟨by simpa using hlt, hs.symm⟩
  · simp [hlt] at hs

theorem send_eq_none {α : Type} (c : Chan α) (v : α) : c.send v = none ↔ c.full := by
  unfold Chan.send Chan.full
  by_cases hlt : c.buf.length < c.cap <;> simp [hlt]

/-- The send that waited: the oldest element is gone and the event is buffered. -/
theorem sendAfterRecv_eq_some {α : Type} (c c' : Chan α) (v : α)
    (h : c.sendAfterRecv v = some c') :
    ∃ x rest, c.buf = x :: rest ∧ c' = { c with buf := rest ++ [v] } := by
  unfold Chan.sendAfterRecv Chan.recv at h
  cases hb : c.buf with
  | nil => simp [hb] at h
  | cons x rest =>
    simp only [hb] at h
    obtain ⟨_, hc'⟩ := send_eq_some _ _ v h
    exact ⟨x, rest, rfl, by rw [hc']⟩

/-- A full channel of capacity 1 that holds one element accepts the send once its
consumer has received. -/
theorem sendAfterRecv_of_bounded {α : Type} (c : Chan α) (v : α) (hcap : c.cap = 1)
    (hfull : c.full) (hlen : c.buf.length ≤ 1) :
    c.sendAfterRecv v = some { c with buf := [v] } := by
  unfold Chan.full at hfull
  unfold Chan.sendAfterRecv Chan.recv Chan.send
  cases hb : c.buf with
  | nil => rw [hb, hcap] at hfull; simp at hfull
  | cons x rest =>
    rw [hb] at hlen
    have hrest : rest = [] := by
      cases rest with
      | nil => rfl
      | cons y ys => simp at hlen
    subst hrest
    simp [hcap]

/-- One iteration of the loop: it parks and leaves the heap, or it goes on with the
channel updated by the send. -/
theorem rangeSend_cons_cases {α : Type} (k : String) (ch : Nat) (rest : GoMap)
    (rcv : Nat → Bool) (h : List (Chan α)) (v : α) :
    rangeSend ((k, ch) :: rest) rcv h v = .blocked h ∨
      ∃ c, h[ch]? = some c ∧
        ((¬ c.full ∧ rangeSend ((k, ch) :: rest) rcv h v =
            rangeSend rest rcv (h.set ch { c with buf := c.buf ++ [v] }) v) ∨
          (c.full ∧ rcv ch = true ∧ ∃ c', c.sendAfterRecv v = some c' ∧
            rangeSend ((k, ch) :: rest) rcv h v = rangeSend rest rcv (h.set ch c') v)) := by
  cases hc : h[ch]? with
  | none => exact Or.inl (rangeSend_cons_none k ch rest rcv h v hc)
  | some c =>
    cases hs : c.send v with
    | some c' =>
      obtain ⟨hnf, hc'⟩ := send_eq_some c c' v hs
      refine Or.inr ⟨c, rfl, Or.inl ⟨hnf, ?_⟩⟩
      rw [rangeSend_cons_sent k ch rest rcv h v c c' hc hs, hc']
    | none =>
      cases hr : rcv ch with
      | false => exact Or.inl (rangeSend_cons_parked k ch rest rcv h v c hc hs hr)
      | true =>
        cases hsr : c.sendAfterRecv v with
        | none => exact Or.inl (rangeSend_cons_overfull k ch rest rcv h v c hc hs hsr)
        | some c' =>
          exact Or.inr ⟨c, rfl, Or.inr ⟨(send_eq_none c v).1 hs, rfl, c', hsr,
            rangeSend_cons_received k ch rest rcv h v c c' hc hs hr hsr⟩⟩

theorem rangeSend_length {α : Type} (es : GoMap) (rcv : Nat → Bool) (h : List (Chan α))
    (v : α) : (rangeSend es rcv h v).heap.length = h.length := by
  induction es generalizing h with
  | nil => simp [rangeSend, Sent.heap]
  | cons e rest ih =>
    obtain ⟨k, ch⟩ := e
    rcases rangeSend_cons_cases k ch rest rcv h v with hb | ⟨c, _, ⟨_, hgo⟩ | ⟨_, _, c', _, hgo⟩⟩
    · rw [hb]; rfl
    · rw [hgo, ih]; simp
    · rw [hgo, ih]; simp

theorem rangeSend_frame {α : Type} (es : GoMap) (rcv : Nat → Bool) (h : List (Chan α))
    (v : α) (r : Nat) (hr : r ∉ es.map Prod.snd) :
    (rangeSend es rcv h v).heap[r]? = h[r]? := by
  induction es generalizing h with
  | nil => simp [rangeSend, Sent.heap]
  | cons e rest ih =>
    obtain ⟨k, ch⟩ := e
    simp only [List.map_cons, List.mem_cons, not_or] at hr
    rcases rangeSend_cons_cases k ch rest rcv h v with hb | ⟨c, _, ⟨_, hgo⟩ | ⟨_, _, c', _, hgo⟩⟩
    · rw [hb]; rfl
    · rw [hgo, ih _ hr.2, List.getElem?_set_ne (Ne.symm hr.1)]
    · rw [hgo, ih _ hr.2, List.getElem?_set_ne (Ne.symm hr.1)]

/-- A full channel whose consumer does not receive keeps its content, however the
loop ends. -/
theorem rangeSend_full_unchanged {α : Type} (es : GoMap) (rcv : Nat → Bool)
    (h : List (Chan α)) (v : α) (r : Nat) (c : Chan α) (hc : h[r]? = some c)
    (hfull : c.full) (hrcv : rcv r = false) :
    (rangeSend es rcv h v).heap[r]? = some c := by
  induction es generalizing h with
  | nil => simpa [rangeSend, Sent.heap] using hc
  | cons e rest ih =>
    obtain ⟨k, ch⟩ := e
    rcases rangeSend_cons_cases k ch rest rcv h v with hb | ⟨c0, hc0, ⟨hnf, hgo⟩ | ⟨_, hr, c', _, hgo⟩⟩
    · rw [hb]; exact hc
    · rw [hgo]
      apply ih
      have hne : ch ≠ r := by
        intro hh
        subst hh
        rw [hc] at hc0
        cases hc0
        exact hnf hfull
      rw [List.getElem?_set_ne hne]
      exact hc
    · rw [hgo]
      apply ih
      have hne : ch ≠ r := by
        intro hh
        subst hh
        rw [hrcv] at hr
        cases hr
      rw [List.getElem?_set_ne hne]
      exact hc

/-- A loop over entries with pairwise different, allocated channels that all have
room completes, and each of them gains exactly the event. -/
theorem rangeSend_done {α : Type} (es : GoMap) (rcv : Nat → Bool) (h : List (Chan α))
    (v : α) (hnd : (es.map Prod.snd).Nodup)
    (hroom : ∀ e ∈ es, ∃ c, h[e.2]? = some c ∧ ¬ c.full) :
    ∃ h', rangeSend es rcv h v = .done h' ∧
      ∀ e ∈ es, ∀ c, h[e.2]? = some c → h'[e.2]? = some { c with buf := c.buf ++ [v] } := by
  induction es generalizing h with
  | nil => exact ⟨h, by simp [rangeSend], by simp⟩
  | cons e rest ih =>
    obtain ⟨k, ch⟩ := e
    simp only [List.map_cons, List.nodup_cons] at hnd
    obtain ⟨c, hc, hnf⟩ := hroom (k, ch) (List.mem_cons_self _ _)
    cases hs : c.send v with
    | none => exact absurd ((send_eq_none c v).1 hs) hnf
    | some c' =>
      have hc'eq := (send_eq_some c c' v hs).2
      have hlt : ch < h.length := by
        rcases List.getElem?_eq_some.1 hc with ⟨hl, _⟩
        exact hl
      have hroom' : ∀ e ∈ rest, ∃ c0, (h.set ch c')[e.2]? = some c0 ∧ ¬ c0.full := by
        intro e he
        have hne : ch ≠ e.2 := by
          intro hh
          apply hnd.1
          rw [hh]
          exact List.mem_map_of_mem Prod.snd he
        rw [List.getElem?_set_ne hne]
        exact hroom e (List.mem_cons_of_mem _ he)
      obtain ⟨h', hdone, hpt⟩ := ih (h.set ch c') hnd.2 hroom'
      refine ⟨h', ?_, ?_⟩
      · rw [rangeSend_cons_sent k ch rest rcv h v c c' hc hs, hdone]
      · intro e he c0 hc0
        rcases List.mem_cons.1 he with h1 | h1
        · cases h1
          simp only [] at hc0 ⊢
          rw [hc] at hc0
          cases hc0
          have hfr := rangeSend_frame rest rcv (h.set ch c') v ch hnd.1
          rw [hdone] at hfr
          simp only [Sent.heap] at hfr
          rw [hfr, List.getElem?_set_self hlt, hc'eq]
        · have hne : ch ≠ e.2 := by
            intro hh
            apply hnd.1
            rw [hh]
            exact List.mem_map_of_mem Prod.snd h1
          apply hpt e h1
          rw [List.getElem?_set_ne hne]
          exact hc0

/-- A loop that meets a channel that is unallocated, or full with a consumer that
does not receive, does not complete. -/
theorem rangeSend_blocked {α : Type} (es : GoMap) (rcv : Nat → Bool) (h : List (Chan α))
    (v : α) (hfull : ∃ e ∈ es, rcv e.2 = false ∧ ∀ c, h[e.2]? = some c → c.full) :
    ∃ h', rangeSend es rcv h v = .blocked h' := by
  induction es generalizing h with
  | nil => simp at hfull
  | cons e rest ih =>
    obtain ⟨k, ch⟩ := e
    rcases rangeSend_cons_cases k ch rest rcv h v with hb | ⟨c, hc, hcase⟩
    · exact ⟨h, hb⟩
    · have hlt : ch < h.length := by
        rcases List.getElem?_eq_some.1 hc with ⟨hl, _⟩
        exact hl
      obtain ⟨e, he, hre, hf⟩ := hfull
      have hgo : ∃ c', rangeSend ((k, ch) :: rest) rcv h v = rangeSend rest rcv (h.set ch c') v ∧
          ((k, ch) = e → False) := by
        rcases hcase with ⟨hnf, hgo⟩ | ⟨_, hr, c', _, hgo⟩
        · exact ⟨_, hgo, fun hh => by subst hh; exact hnf (hf c hc)⟩
        · exact ⟨_, hgo, fun hh => by subst hh; rw [hre] at hr; cases hr⟩
      obtain ⟨c', hgo, hne⟩ := hgo
      rw [hgo]
      apply ih
      rcases List.mem_cons.1 he with h1 | h1
      · exact absurd h1.symm hne
      · refine ⟨e, h1, hre, ?_⟩
        intro c0 hc0
        by_cases hch : ch = e.2
        · exfalso
          rcases hcase with ⟨hnf, _⟩ | ⟨_, hr, _⟩
          · exact hnf (hf c (by rw [← hch]; exact hc))
          · rw [hch, hre] at hr; cases hr
        · rw [List.getElem?_set_ne hch] at hc0
          exact hf c0 hc0

/-- Whatever way a loop over pairwise different channels ends, a channel holds what
it held, or that and the event, or (when it was full and its consumer received) that
and the event less the oldest element. -/
theorem rangeSend_at_most_once {α : Type} (es : GoMap) (rcv : Nat → Bool)
    (h : List (Chan α)) (v : α) (hnd : (es.map Prod.snd).Nodup) (r : Nat) (c : Chan α)
    (hc : h[r]? = some c) :
    (rangeSend es rcv h v).heap[r]? = some c ∨
      (rangeSend es rcv h v).heap[r]? = some { c with buf := c.buf ++ [v] } ∨
      (c.full ∧ rcv r = true ∧ ∃ c', c.sendAfterRecv v = some c' ∧
        (rangeSend es rcv h v).heap[r]? = some c') := by
  induction es generalizing h with
  | nil => left; simpa [rangeSend, Sent.heap] using hc
  | cons e rest ih =>
    obtain ⟨k, ch⟩ := e
    simp only [List.map_cons, List.nodup_cons] at hnd
    have hlt : r < h.length := by
      rcases List.getElem?_eq_some.1 hc with ⟨hl, _⟩
      exact hl
    rcases rangeSend_cons_cases k ch rest rcv h v with
      hb | ⟨c0, hc0, ⟨_, hgo⟩ | ⟨hf, hr, c', hsr, hgo⟩⟩
    · rw [hb]; left; exact hc
    · rw [hgo]
      by_cases hne : ch = r
      · subst hne
        rw [hc] at hc0
        cases hc0
        right; left
        rw [rangeSend_frame rest rcv _ v ch hnd.1, List.getElem?_set_self hlt]
      · apply ih _ hnd.2
        rw [List.getElem?_set_ne hne]
        exact hc
    · rw [hgo]
      by_cases hne : ch = r
      · subst hne
        rw [hc] at hc0
        cases hc0
        right; right
        refine ⟨hf, hr, c', hsr, ?_⟩
        rw [rangeSend_frame rest rcv _ v ch hnd.1, List.getElem?_set_self hlt]
      · apply ih _ hnd.2
        rw [List.getElem?_set_ne hne]
        exact hc

/-- A loop that completes has sent the event to every entry: each channel of the
map holds what it held and the event, less the oldest element when it was full and
its consumer had to receive first.  Nothing is dropped. -/
theorem rangeSend_done_delivered {α : Type} (es : GoMap) (rcv : Nat → Bool)
    (h h' : List (Chan α)) (v : α) (hnd : (es.map Prod.snd).Nodup)
    (hdone : rangeSend es rcv h v = .done h') :
    ∀ e ∈ es, ∃ c, h[e.2]? = some c ∧
      ((¬ c.full ∧ h'[e.2]? = some { c with buf := c.buf ++ [v] }) ∨
        (c.full ∧ rcv e.2 = true ∧ ∃ c', c.sendAfterRecv v = some c' ∧
          h'[e.2]? = some c')) := by
  induction es generalizing h with
  | nil => simp
  | cons e rest ih =>
    obtain ⟨k, ch⟩ := e
    simp only [List.map_cons, List.nodup_cons] at hnd
    rcases rangeSend_cons_cases k ch rest rcv h v with hb | ⟨c, hc, hcase⟩
    · rw [hb] at hdone; cases hdone
    · have hlt : ch < h.length := by
        rcases List.getElem?_eq_some.1 hc with ⟨hl, _⟩
        exact hl
      have hrest : ∀ c', rangeSend rest rcv (h.set ch c') v = .done h' →
          h'[ch]? = some c' ∧ ∀ e ∈ rest, ∃ c, h[e.2]? = some c ∧
            ((¬ c.full ∧ h'[e.2]? = some { c with buf := c.buf ++ [v] }) ∨
              (c.full ∧ rcv e.2 = true ∧ ∃ c', c.sendAfterRecv v = some c' ∧
                h'[e.2]? = some c')) := by
        intro c' hd
        constructor
        · have := rangeSend_frame rest rcv (h.set ch c') v ch hnd.1
          rw [hd] at this
          simp only [Sent.heap] at this
          rw [this, List.getElem?_set_self hlt]
        · intro e he
          have hne : ch ≠ e.2 := by
            intro hh
            apply hnd.1
            rw [hh]
            exact List.mem_map_of_mem Prod.snd he
          obtain ⟨c0, hc0, hres⟩ := ih (h.set ch c') hnd.2 hd e he
          rw [List.getElem?_set_ne hne] at hc0
          exact ⟨c0, hc0, hres⟩
      intro e he
      rcases hcase with ⟨hnf, hgo⟩ | ⟨hf, hr, c', hsr, hgo⟩
      · rw [hgo] at hdone
        obtain ⟨hch, hothers⟩ := hrest _ hdone
        rcases List.mem_cons.1 he with h1 | h1
        · cases h1
          exact ⟨c, hc, Or.inl ⟨hnf, hch⟩⟩
        · exact hothers e h1
      · rw [hgo] at hdone
        obtain ⟨hch, hothers⟩ := hrest _ hdone
        rcases List.mem_cons.1 he with h1 | h1
        · cases h1
          exact ⟨c, hc, Or.inr ⟨hf, hr, c', hsr, hch⟩⟩
        · exact hothers e h1

/-- A loop over pairwise different, allocated channels completes when each of them
has room, or is a full channel of capacity 1 whose consumer receives. -/
theorem rangeSend_live {α : Type} (es : GoMap) (rcv : Nat → Bool) (h : List (Chan α))
    (v : α) (hnd : (es.map Prod.snd).Nodup)
    (hlive : ∀ e ∈ es, ∃ c, h[e.2]? = some c ∧
      (¬ c.full ∨ (rcv e.2 = true ∧ c.cap = 1 ∧ c.buf.length ≤ 1))) :
    ∃ h', rangeSend es rcv h v = .done h' := by
  induction es generalizing h with
  | nil => exact ⟨h, by simp [rangeSend]⟩
  | cons e rest ih =>
    obtain ⟨k, ch⟩ := e
    simp only [List.map_cons, List.nodup_cons] at hnd
    obtain ⟨c, hc, hok⟩ := hlive (k, ch) (List.mem_cons_self _ _)
    have hnext : ∀ c', ∃ h', rangeSend rest rcv (h.set ch c') v = .done h' := by
      intro c'
      apply ih _ hnd.2
      intro e he
      have hne : ch ≠ e.2 := by
        intro hh
        apply hnd.1
        rw [hh]
        exact List.mem_map_of_mem Prod.snd he
      rw [List.getElem?_set_ne hne]
      exact hlive e (List.mem_cons_of_mem _ he)
    cases hs : c.send v with
    | some c' =>
      rw [rangeSend_cons_sent k ch rest rcv h v c c' hc hs]
      exact hnext c'
    | none =>
      rcases hok with hnf | ⟨hr, hcap, hlen⟩
      · exact absurd ((send_eq_none c v).1 hs) hnf
      · rw [rangeSend_cons_received k ch rest rcv h v c _ hc hs hr
          (sendAfterRecv_of_bounded c v hcap ((send_eq_none c v).1 hs) hlen)]
        exact hnext _

/-! ## The resolvers, step by step -/

theorem SAdd_none (r : Redis) (u : String) :
    r.SAdd none u = .ok (if u ∈ r.users then r else { r with users := u :: r.users }) := rfl

/-- What `createUser` does when `SADD` succeeds. -/
theorem createUser_ok (o : LoopRun) (s : GraphQLServer) (u : String) (r : Redis)
    (hr : s.redisClient.SAdd none u = .ok r) :
    createUser none o s u =
      match rangeSend (o.visit s.userChannels) o.receives s.usrChans u with
      | .blocked h => .blocked { s with redisClient := r, usrChans := h }
      | .done h => .returned (.ok ()) { s with redisClient := r, usrChans := h } := by
  unfold createUser
  rw [hr]

theorem createUser_error (o : LoopRun) (s : GraphQLServer) (u : String) (e : Error) :
    createUser (some e) o s u = .returned (.error e) s := rfl

/-- A `createUser` call that returns `nil` has run its `SADD` and completed its
broadcast. -/
theorem createUser_returned (sadd : Option Error) (o : LoopRun) (s s1 : GraphQLServer)
    (u : String) (h : createUser sadd o s u = .returned (.ok ()) s1) :
    sadd = none ∧
      rangeSend (o.visit s.userChannels) o.receives s.usrChans u = .done s1.usrChans ∧
      s.redisClient.SAdd none u = .ok s1.redisClient ∧
      s1.messageChannels = s.messageChannels ∧ s1.userChannels = s.userChannels ∧
      s1.msgChans = s.msgChans := by
  cases sadd with
  | some e => simp [createUser_error] at h
  | none =>
    rw [createUser_ok o s u _ (SAdd_none _ u)] at h
    cases hs : rangeSend (o.visit s.userChannels) o.receives s.usrChans u with
    | blocked h' => rw [hs] at h; simp at h
    | done h' =>
      rw [hs] at h
      simp only [Outcome.returned.injEq, true_and] at h
      subst h
      exact ⟨rfl, rfl, SAdd_none _ u, rfl, rfl, rfl⟩

/-- Whatever way `createUser` ends, it leaves both maps and the message channels
alone, and the user-joined channels are what its broadcast left or untouched. -/
theorem createUser_state (sadd : Option Error) (o : LoopRun) (s : GraphQLServer) (u : String) :
    (createUser sadd o s u).state.messageChannels = s.messageChannels ∧
      (createUser sadd o s u).state.userChannels = s.userChannels ∧
      (createUser sadd o s u).state.msgChans = s.msgChans ∧
      ((createUser sadd o s u).state.usrChans = s.usrChans ∨
        (createUser sadd o s u).state.usrChans =
          (rangeSend (o.visit s.userChannels) o.receives s.usrChans u).heap) := by
  cases sadd with
  | some e => simp [createUser_error, Outcome.state]
  | none =>
    rw [createUser_ok o s u _ (SAdd_none _ u)]
    cases hs : rangeSend (o.visit s.userChannels) o.receives s.usrChans u <;>
      simp [Outcome.state, Sent.heap]

/-- The rest of `PostMessage` once the author is ensured and the second user-joined
loop has completed. -/
theorem PostMessage_of_ensured (c : Codec) (env : PostEnv) (s s1 : GraphQLServer)
    (a t : String) (h : List (Chan String))
    (h1 : createUser env.sadd env.order1 s a = .returned (.ok ()) s1)
    (h2 : rangeSend (env.order2.visit s1.userChannels) env.order2.receives s1.usrChans a = .done h) :
    PostMessage c env s a t =
      match s1.redisClient.LPush env.lpush
          (c.Marshal { ID := env.id, CreatedAt := env.now, Text := t, User := a }) with
      | .error err => .returned (.error err) { s1 with usrChans := h }
      | .ok r =>
        match rangeSend (env.order3.visit s1.messageChannels) env.order3.receives s1.msgChans
            { ID := env.id, CreatedAt := env.now, Text := t, User := a } with
        | .blocked h' => .blocked { s1 with usrChans := h, redisClient := r, msgChans := h' }
        | .done h' =>
          .returned (.ok { ID := env.id, CreatedAt := env.now, Text := t, User := a })
            { s1 with usrChans := h, redisClient := r, msgChans := h' } := by
  unfold PostMessage
  rw [h1]
  simp only [h2]

/-- A `PostMessage` call that returns a message has gone through every stage. -/
theorem PostMessage_returned (c : Codec) (env : PostEnv) (s s' : GraphQLServer)
    (a t : String) (m : Message) (h : PostMessage c env s a t = .returned (.ok m) s') :
    m = { ID := env.id, CreatedAt := env.now, Text := t, User := a } ∧
      env.lpush = none ∧
      s'.redisClient.messages = c.Marshal m :: s.redisClient.messages ∧
      s'.messageChannels = s.messageChannels ∧
      rangeSend (env.order3.visit s.messageChannels) env.order3.receives s.msgChans m = .done s'.msgChans := by
  cases h1 : createUser env.sadd env.order1 s a with
  | blocked s1 => unfold PostMessage at h; rw [h1] at h; simp at h
  | returned val s1 =>
    cases val with
    | error e => unfold PostMessage at h; rw [h1] at h; simp at h
    | ok x =>
      cases x
      obtain ⟨hsadd, _, hstore, hmc, _, hmh⟩ := createUser_returned _ _ _ _ _ h1
      cases h2 : rangeSend (env.order2.visit s1.userChannels) env.order2.receives s1.usrChans a with
      | blocked hh => unfold PostMessage at h; rw [h1] at h; simp [h2] at h
      | done hh =>
        rw [PostMessage_of_ensured c env s s1 a t hh h1 h2] at h
        cases hl : env.lpush with
        | some e => simp [hl, Redis.LPush] at h
        | none =>
          simp only [hl, Redis.LPush] at h
          cases h3 : rangeSend (env.order3.visit s1.messageChannels) env.order3.receives s1.msgChans
              { ID := env.id, CreatedAt := env.now, Text := t, User := a } with
          | blocked h' => rw [h3] at h; simp at h
          | done h' =>
            rw [h3] at h
            simp only [Outcome.returned.injEq, Except.ok.injEq] at h
            obtain ⟨hm, hs'⟩ := h
            subst hm
            subst hs'
            rw [hmc, hmh] at h3
            have husers : s1.redisClient.messages = s.redisClient.messages := by
              rw [SAdd_none] at hstore
              simp only [Except.ok.injEq] at hstore
              rw [← hstore]
              split <;> rfl
            exact ⟨rfl, rfl, by simp [husers], hmc, h3⟩

/-- Whatever way `PostMessage` ends: both maps are as before; the message channels
are untouched or as its message loop left them; the user-joined channels are
untouched or as one or both user-joined loops left them. -/
theorem PostMessage_state (c : Codec) (env : PostEnv) (s : GraphQLServer) (a t : String) :
    (PostMessage c env s a t).state.messageChannels = s.messageChannels ∧
      (PostMessage c env s a t).state.userChannels = s.userChannels ∧
      ((PostMessage c env s a t).state.msgChans = s.msgChans ∨
        (PostMessage c env s a t).state.msgChans =
          (rangeSend (env.order3.visit s.messageChannels) env.order3.receives s.msgChans
            { ID := env.id, CreatedAt := env.now, Text := t, User := a }).heap) ∧
      ((PostMessage c env s a t).state.usrChans = s.usrChans ∨
        (PostMessage c env s a t).state.usrChans =
          (rangeSend (env.order1.visit s.userChannels) env.order1.receives s.usrChans a).heap ∨
        (PostMessage c env s a t).state.usrChans =
          (rangeSend (env.order2.visit s.userChannels) env.order2.receives (rangeSend (env.order1.visit s.userChannels) env.order1.receives s.usrChans a).heap a).heap) := by
  have hcu := createUser_state env.sadd env.order1 s a
  cases h1 : createUser env.sadd env.order1 s a with
  | blocked s1 =>
    rw [h1] at hcu
    have : PostMessage c env s a t = .blocked s1 := by unfold PostMessage; rw [h1]
    rw [this]
    simp only [Outcome.state] at hcu ⊢
    obtain ⟨x1, x2, x3, x4⟩ := hcu
    exact ⟨x1, x2, Or.inl x3, by rcases x4 with x4 | x4 <;> simp [x4]⟩
  | returned val s1 =>
    cases val with
    | error e =>
      rw [h1] at hcu
      have : PostMessage c env s a t = .returned (.error e) s1 := by
        unfold PostMessage; rw [h1]
      rw [this]
      simp only [Outcome.state] at hcu ⊢
      obtain ⟨x1, x2, x3, x4⟩ := hcu
      exact ⟨x1, x2, Or.inl x3, by rcases x4 with x4 | x4 <;> simp [x4]⟩
    | ok x =>
      cases x
      obtain ⟨_, hdone, _, hmc, huc, hmh⟩ := createUser_returned _ _ _ _ _ h1
      have hH1 : (rangeSend (env.order1.visit s.userChannels) env.order1.receives s.usrChans a).heap = s1.usrChans := by
        rw [hdone]; rfl
      cases h2 : rangeSend (env.order2.visit s1.userChannels) env.order2.receives s1.usrChans a with
      | blocked hh =>
        have : PostMessage c env s a t = .blocked { s1 with usrChans := hh } := by
          unfold PostMessage; rw [h1]; simp only [h2]
        rw [this]
        simp only [Outcome.state]
        refine ⟨hmc, huc, Or.inl hmh, Or.inr (Or.inr ?_)⟩
        rw [hH1, ← huc, h2]; rfl
      | done hh =>
        have hU : hh = (rangeSend (env.order2.visit s.userChannels) env.order2.receives (rangeSend (env.order1.visit s.userChannels) env.order1.receives s.usrChans a).heap a).heap := by
          rw [hH1, ← huc, h2]; rfl
        rw [PostMessage_of_ensured c env s s1 a t hh h1 h2]
        cases hl : env.lpush with
        | some e =>
          simp only [Redis.LPush, Outcome.state]
          exact ⟨hmc, huc, Or.inl hmh, Or.inr (Or.inr hU)⟩
        | none =>
          simp only [Redis.LPush]
          cases h3 : rangeSend (env.order3.visit s1.messageChannels) env.order3.receives s1.msgChans
              { ID := env.id, CreatedAt := env.now, Text := t, User := a } with
          | blocked h' =>
            simp only [Outcome.state]
            refine ⟨hmc, huc, Or.inr ?_, Or.inr (Or.inr hU)⟩
            rw [← hmc, ← hmh, h3]; rfl
          | done h' =>
            simp only [Outcome.state]
            refine ⟨hmc, huc, Or.inr ?_, Or.inr (Or.inr hU)⟩
            rw [← hmc, ← hmh, h3]; rfl

theorem visit_refs_perm (o : LoopRun) (m : GoMap) :
    ((o.visit m).map Prod.snd).Perm (m.map Prod.snd) :=
  (o.perm m).map Prod.snd

theorem visit_refs_nodup (o : LoopRun) (m : GoMap) (h : (m.map Prod.snd).Nodup) :
    ((o.visit m).map Prod.snd).Nodup :=
  (visit_refs_perm o m).nodup_iff.2 h

theorem visit_not_mem (o : LoopRun) (m : GoMap) (r : Nat) (h : r ∉ m.map Prod.snd) :
    r ∉ (o.visit m).map Prod.snd := fun hh => h ((visit_refs_perm o m).mem_iff.1 hh)

/-- The `PostMessage` call never touches a message channel that is not in the map. -/
theorem PostMessage_msg_frame (c : Codec) (env : PostEnv) (s : GraphQLServer) (a t : String)
    (r : Nat) (hr : r ∉ s.messageChannels.map Prod.snd) :
    msgBuf (PostMessage c env s a t).state r = msgBuf s r := by
  obtain ⟨_, _, hm, _⟩ := PostMessage_state c env s a t
  unfold msgBuf
  rcases hm with hm | hm
  · rw [hm]
  · rw [hm, rangeSend_frame _ _ _ _ r (visit_not_mem _ _ r hr)]

/-- The `PostMessage` call never touches a user-joined channel that is not in the
map. -/
theorem PostMessage_usr_frame (c : Codec) (env : PostEnv) (s : GraphQLServer) (a t : String)
    (r : Nat) (hr : r ∉ s.userChannels.map Prod.snd) :
    usrBuf (PostMessage c env s a t).state r = usrBuf s r := by
  obtain ⟨_, _, _, hu⟩ := PostMessage_state c env s a t
  unfold usrBuf
  rcases hu with hu | hu | hu
  · rw [hu]
  · rw [hu, rangeSend_frame _ _ _ _ r (visit_not_mem _ _ r hr)]
  · rw [hu, rangeSend_frame _ _ _ _ r (visit_not_mem _ _ r hr),
      rangeSend_frame _ _ _ _ r (visit_not_mem _ _ r hr)]

/-! ## Well-formedness is kept by every step -/

theorem mapDelete_keys_nodup (m : GoMap) (k : String) (h : (m.map Prod.fst).Nodup) :
    ((mapDelete m k).map Prod.fst).Nodup :=
  h.sublist ((mapDelete_sublist m k).map Prod.fst)

theorem mapDelete_refs_nodup (m : GoMap) (k : String) (h : (m.map Prod.snd).Nodup) :
    ((mapDelete m k).map Prod.snd).Nodup :=
  h.sublist ((mapDelete_sublist m k).map Prod.snd)

theorem mapSet_keys_nodup (m : GoMap) (k : String) (v : Nat) (h : (m.map Prod.fst).Nodup) :
    ((mapSet m k v).map Prod.fst).Nodup := by
  unfold mapSet
  simp only [List.map_cons, List.nodup_cons]
  refine ⟨?_, mapDelete_keys_nodup m k h⟩
  intro hk
  obtain ⟨e, he, hek⟩ := List.mem_map.1 hk
  exact ((mem_mapDelete m k e).1 he).2 hek

theorem mapSet_refs_nodup (m : GoMap) (k : String) (v : Nat) (h : (m.map Prod.snd).Nodup)
    (hv : ∀ e ∈ m, e.2 < v) : ((mapSet m k v).map Prod.snd).Nodup := by
  unfold mapSet
  simp only [List.map_cons, List.nodup_cons]
  refine ⟨?_, mapDelete_refs_nodup m k h⟩
  intro hk
  obtain ⟨e, he, hev⟩ := List.mem_map.1 hk
  have := hv e ((mem_mapDelete m k e).1 he).1
  omega

theorem mem_mapSet (m : GoMap) (k : String) (v : Nat) (e : String × Nat) (he : e ∈ mapSet m k v) :
    e = (k, v) ∨ (e ∈ m ∧ e.1 ≠ k) := by
  unfold mapSet at he
  rcases List.mem_cons.1 he with h | h
  · exact Or.inl h
  · exact Or.inr ((mem_mapDelete m k e).1 h)

/-- The server `NewGraphQlServer` returns is well formed. -/
theorem WF_NewGraphQlServer (r : Redis) : WF (NewGraphQlServer r) :=
  { msgKeys := List.nodup_nil, msgRefs := List.nodup_nil, msgValid := by simp [NewGraphQlServer],
    usrKeys := List.nodup_nil, usrRefs := List.nodup_nil, usrValid := by simp [NewGraphQlServer] }

theorem recvUser_eq (s s' : GraphQLServer) (ch : Nat) (v : String)
    (h : recvUser s ch = some (v, s')) :
    ∃ c', s' = { s with usrChans := s.usrChans.set ch c' } := by
  unfold recvUser at h
  cases hc : s.usrChans[ch]? with
  | none => simp [hc] at h
  | some c =>
    cases hr : c.recv with
    | none => simp [hc, hr] at h
    | some p =>
      obtain ⟨v0, c'⟩ := p
      simp only [hc, hr, Option.some.injEq, Prod.mk.injEq] at h
      exact ⟨c', h.2.symm⟩

theorem recvMessage_eq (s s' : GraphQLServer) (ch : Nat) (v : Message)
    (h : recvMessage s ch = some (v, s')) :
    ∃ c', s' = { s with msgChans := s.msgChans.set ch c' } := by
  unfold recvMessage at h
  cases hc : s.msgChans[ch]? with
  | none => simp [hc] at h
  | some c =>
    cases hr : c.recv with
    | none => simp [hc, hr] at h
    | some p =>
      obtain ⟨v0, c'⟩ := p
      simp only [hc, hr, Option.some.injEq, Prod.mk.injEq] at h
      exact ⟨c', h.2.symm⟩

/-- A step keeps the registry well formed. -/
theorem WF_step (s s' : GraphQLServer) (hwf : WF s) (hstep : Step s s') : WF s' := by
  cases hstep with
  | store r => exact ⟨hwf.1, hwf.2, hwf.3, hwf.4, hwf.5, hwf.6⟩
  | sendUser e c c' v he hc hs =>
    exact ⟨hwf.1, hwf.2, hwf.3, hwf.4, hwf.5, by simpa using hwf.6⟩
  | sendMessage e c c' v he hc hs =>
    exact ⟨hwf.1, hwf.2, by simpa using hwf.3, hwf.4, hwf.5, hwf.6⟩
  | recvUser s1 ch v h =>
    obtain ⟨c', rfl⟩ := recvUser_eq s _ ch v h
    exact ⟨hwf.1, hwf.2, hwf.3, hwf.4, hwf.5, by simpa using hwf.6⟩
  | recvMessage s1 ch v h =>
    obtain ⟨c', rfl⟩ := recvMessage_eq s _ ch v h
    exact ⟨hwf.1, hwf.2, by simpa using hwf.3, hwf.4, hwf.5, hwf.6⟩
  | registerMessage user =>
    refine ⟨mapSet_keys_nodup _ _ _ hwf.1, mapSet_refs_nodup _ _ _ hwf.2 hwf.3, ?_,
      hwf.4, hwf.5, hwf.6⟩
    intro e he
    simp only [List.length_append, List.length_singleton]
    rcases mem_mapSet _ _ _ e he with h | h
    · rw [h]; simp
    · exact Nat.lt_succ_of_lt (hwf.3 e h.1)
  | registerUser user =>
    refine ⟨hwf.1, hwf.2, hwf.3, mapSet_keys_nodup _ _ _ hwf.4,
      mapSet_refs_nodup _ _ _ hwf.5 hwf.6, ?_⟩
    intro e he
    simp only [List.length_append, List.length_singleton]
    rcases mem_mapSet _ _ _ e he with h | h
    · rw [h]; simp
    · exact Nat.lt_succ_of_lt (hwf.6 e h.1)
  | cleanupMessage user =>
    refine ⟨mapDelete_keys_nodup _ _ hwf.1, mapDelete_refs_nodup _ _ hwf.2, ?_,
      hwf.4, hwf.5, hwf.6⟩
    intro e he
    exact hwf.3 e ((mem_mapDelete _ _ e).1 he).1
  | cleanupUser user =>
    refine ⟨hwf.1, hwf.2, hwf.3, mapDelete_keys_nodup _ _ hwf.4,
      mapDelete_refs_nodup _ _ hwf.5, ?_⟩
    intro e he
    exact hwf.6 e ((mem_mapDelete _ _ e).1 he).1

/-- Every state the system reaches from a well-formed one is well formed. -/
theorem WF_steps (s s' : GraphQLServer) (hwf : WF s) (hsteps : Steps s s') : WF s' := by
  induction hsteps with
  | refl => exact hwf
  | tail _ hstep ih => exact WF_step _ _ ih hstep

/-- Every state a server can be in is well formed. -/
theorem WF_of_reachable (s : GraphQLServer) (h : Reachable s) : WF s := by
  obtain ⟨r, hr⟩ := h
  exact WF_steps _ _ (WF_NewGraphQlServer r) hr

/-! ## Channels stay within their capacity -/

theorem bounded_set {α : Type} (h : List (Chan α)) (i : Nat) (c' : Chan α)
    (hb : ∀ c ∈ h, c.cap = 1 ∧ c.buf.length ≤ 1) (hc' : c'.cap = 1 ∧ c'.buf.length ≤ 1) :
    ∀ c ∈ h.set i c', c.cap = 1 ∧ c.buf.length ≤ 1 := by
  intro c hc
  rcases List.mem_or_eq_of_mem_set hc with h1 | h1
  · exact hb c h1
  · rw [h1]; exact hc'

theorem bounded_send {α : Type} (c c' : Chan α) (v : α) (hs : c.send v = some c')
    (hc : c.cap = 1 ∧ c.buf.length ≤ 1) : c'.cap = 1 ∧ c'.buf.length ≤ 1 := by
  unfold Chan.send at hs
  by_cases hlt : c.buf.length < c.cap
  · simp only [hlt, if_true, Option.some.injEq] at hs
    subst hs
    simp only [List.length_append, List.length_singleton]
    exact ⟨hc.1, by rw [hc.1] at hlt; omega⟩
  · simp [hlt] at hs

theorem bounded_recv {α : Type} (c c' : Chan α) (x : α) (hr : c.recv = some (x, c'))
    (hc : c.cap = 1 ∧ c.buf.length ≤ 1) : c'.cap = 1 ∧ c'.buf.length ≤ 1 := by
  unfold Chan.recv at hr
  cases hb : c.buf with
  | nil => simp [hb] at hr
  | cons y rest =>
    simp only [hb, Option.some.injEq, Prod.mk.injEq] at hr
    obtain ⟨_, hc'⟩ := hr
    subst hc'
    have := hc.2
    rw [hb] at this
    simp only [List.length_cons] at this
    exact ⟨hc.1, by simp only []; omega⟩

theorem recvUser_chan (s s' : GraphQLServer) (ch : Nat) (v : String)
    (h : recvUser s ch = some (v, s')) :
    ∃ c c', s.usrChans[ch]? = some c ∧ c.recv = some (v, c') ∧
      s' = { s with usrChans := s.usrChans.set ch c' } := by
  unfold recvUser at h
  cases hc : s.usrChans[ch]? with
  | none => simp [hc] at h
  | some c =>
    cases hr : c.recv with
    | none => simp [hc, hr] at h
    | some p =>
      obtain ⟨v0, c'⟩ := p
      simp only [hc, hr, Option.some.injEq, Prod.mk.injEq] at h
      obtain ⟨hv, hs'⟩ := h
      subst hv
      exact ⟨c, c', rfl, hr, hs'.symm⟩

theorem recvMessage_chan (s s' : GraphQLServer) (ch : Nat) (v : Message)
    (h : recvMessage s ch = some (v, s')) :
    ∃ c c', s.msgChans[ch]? = some c ∧ c.recv = some (v, c') ∧
      s' = { s with msgChans := s.msgChans.set ch c' } := by
  unfold recvMessage at h
  cases hc : s.msgChans[ch]? with
  | none => simp [hc] at h
  | some c =>
    cases hr : c.recv with
    | none => simp [hc, hr] at h
    | some p =>
      obtain ⟨v0, c'⟩ := p
      simp only [hc, hr, Option.some.injEq, Prod.mk.injEq] at h
      obtain ⟨hv, hs'⟩ := h
      subst hv
      exact ⟨c, c', rfl, hr, hs'.symm⟩

/-- On the server `NewGraphQlServer` returns there is no channel yet. -/
theorem Bounded_NewGraphQlServer (r : Redis) : Bounded (NewGraphQlServer r) :=
  { msg := by simp [NewGraphQlServer], usr := by simp [NewGraphQlServer] }

/-- A step keeps every channel at capacity 1 with at most one element. -/
theorem Bounded_step (s s' : GraphQLServer) (hb : Bounded s) (hstep : Step s s') :
    Bounded s' := by
  cases hstep with
  | store r => exact ⟨hb.1, hb.2⟩
  | sendUser e c c' v he hc hs =>
    exact ⟨hb.1, bounded_set _ _ _ hb.2
      (bounded_send c c' v hs (hb.2 c (List.getElem?_mem hc)))⟩
  | sendMessage e c c' v he hc hs =>
    exact ⟨bounded_set _ _ _ hb.1
      (bounded_send c c' v hs (hb.1 c (List.getElem?_mem hc))), hb.2⟩
  | recvUser s1 ch v h =>
    obtain ⟨c, c', hc, hr, rfl⟩ := recvUser_chan s _ ch v h
    exact ⟨hb.1, bounded_set _ _ _ hb.2
      (bounded_recv c c' v hr (hb.2 c (List.getElem?_mem hc)))⟩
  | recvMessage s1 ch v h =>
    obtain ⟨c, c', hc, hr, rfl⟩ := recvMessage_chan s _ ch v h
    exact ⟨bounded_set _ _ _ hb.1
      (bounded_recv c c' v hr (hb.1 c (List.getElem?_mem hc))), hb.2⟩
  | registerMessage user =>
    refine ⟨?_, hb.2⟩
    intro c hc
    rcases List.mem_append.1 hc with h1 | h1
    · exact hb.1 c h1
    · rw [List.mem_singleton.1 h1]; simp [Chan.make]
  | registerUser user =>
    refine ⟨hb.1, ?_⟩
    intro c hc
    rcases List.mem_append.1 hc with h1 | h1
    · exact hb.2 c h1
    · rw [List.mem_singleton.1 h1]; simp [Chan.make]
  | cleanupMessage user => exact ⟨hb.1, hb.2⟩
  | cleanupUser user => exact ⟨hb.1, hb.2⟩

theorem Bounded_steps (s s' : GraphQLServer) (hb : Bounded s) (hsteps : Steps s s') :
    Bounded s' := by
  induction hsteps with
  | refl => exact hb
  | tail _ hstep ih => exact Bounded_step _ _ ih hstep

/-- In every state a server can be in, every channel has capacity 1 and holds at most
one element. -/
theorem Bounded_of_reachable (s : GraphQLServer) (h : Reachable s) : Bounded s := by
  obtain ⟨r, hr⟩ := h
  exact Bounded_steps _ _ (Bounded_NewGraphQlServer r) hr

/-! ## The resolvers are sequences of steps -/

theorem sendAfterRecv_parts {α : Type} (c c' : Chan α) (v : α)
    (h : c.sendAfterRecv v = some c') : ∃ x c1, c.recv = some (x, c1) ∧ c1.send v = some c' := by
  unfold Chan.sendAfterRecv at h
  cases hr : c.recv with
  | none => simp [hr] at h
  | some p =>
    obtain ⟨x, c1⟩ := p
    simp only [hr] at h
    exact ⟨x, c1, rfl, h⟩

theorem rangeSend_steps_user (es : GoMap) (rcv : Nat → Bool) (s : GraphQLServer) (v : String)
    (hes : ∀ e ∈ es, e ∈ s.userChannels) :
    Steps s { s with usrChans := (rangeSend es rcv s.usrChans v).heap } := by
  induction es generalizing s with
  | nil => exact Relation.ReflTransGen.refl
  | cons e rest ih =>
    obtain ⟨k, ch⟩ := e
    have hmem := hes _ (List.mem_cons_self _ _)
    rcases rangeSend_cons_cases k ch rest rcv s.usrChans v with
      hb | ⟨c, hc, ⟨hnf, hgo⟩ | ⟨hf, _, c', hsr, hgo⟩⟩
    · rw [hb]; exact Relation.ReflTransGen.refl
    · rw [hgo]
      have hs : c.send v = some { c with buf := c.buf ++ [v] } := by
        unfold Chan.send
        unfold Chan.full at hnf
        simp only [not_not] at hnf
        simp [hnf]
      have h1 : Step s { s with usrChans := s.usrChans.set ch { c with buf := c.buf ++ [v] } } :=
        Step.sendUser s (k, ch) c _ v hmem hc hs
      have h2 := ih { s with usrChans := s.usrChans.set ch { c with buf := c.buf ++ [v] } }
        (fun e he => hes e (List.mem_cons_of_mem _ he))
      exact Relation.ReflTransGen.head h1 h2
    · rw [hgo]
      obtain ⟨x, c1, hrecv, hsend⟩ := sendAfterRecv_parts c c' v hsr
      have hlt : ch < s.usrChans.length := by
        rcases List.getElem?_eq_some.1 hc with ⟨hl, _⟩
        exact hl
      have h1 : Step s { s with usrChans := s.usrChans.set ch c1 } :=
        Step.recvUser s _ ch x (by simp [recvUser, hc, hrecv])
      have h2 : Step { s with usrChans := s.usrChans.set ch c1 }
          { s with usrChans := (s.usrChans.set ch c1).set ch c' } :=
        Step.sendUser { s with usrChans := s.usrChans.set ch c1 } (k, ch) c1 c' v hmem
          (List.getElem?_set_self hlt) hsend
      rw [List.set_set] at h2
      have h3 := ih { s with usrChans := s.usrChans.set ch c' }
        (fun e he => hes e (List.mem_cons_of_mem _ he))
      exact Relation.ReflTransGen.head h1 (Relation.ReflTransGen.head h2 h3)

theorem rangeSend_steps_message (es : GoMap) (rcv : Nat → Bool) (s : GraphQLServer)
    (v : Message) (hes : ∀ e ∈ es, e ∈ s.messageChannels) :
    Steps s { s with msgChans := (rangeSend es rcv s.msgChans v).heap } := by
  induction es generalizing s with
  | nil => exact Relation.ReflTransGen.refl
  | cons e rest ih =>
    obtain ⟨k, ch⟩ := e
    have hmem := hes _ (List.mem_cons_self _ _)
    rcases rangeSend_cons_cases k ch rest rcv s.msgChans v with
      hb | ⟨c, hc, ⟨hnf, hgo⟩ | ⟨hf, _, c', hsr, hgo⟩⟩
    · rw [hb]; exact Relation.ReflTransGen.refl
    · rw [hgo]
      have hs : c.send v = some { c with buf := c.buf ++ [v] } := by
        unfold Chan.send
        unfold Chan.full at hnf
        simp only [not_not] at hnf
        simp [hnf]
      have h1 : Step s { s with msgChans := s.msgChans.set ch { c with buf := c.buf ++ [v] } } :=
        Step.sendMessage s (k, ch) c _ v hmem hc hs
      have h2 := ih { s with msgChans := s.msgChans.set ch { c with buf := c.buf ++ [v] } }
        (fun e he => hes e (List.mem_cons_of_mem _ he))
      exact Relation.ReflTransGen.head h1 h2
    · rw [hgo]
      obtain ⟨x, c1, hrecv, hsend⟩ := sendAfterRecv_parts c c' v hsr
      have hlt : ch < s.msgChans.length := by
        rcases List.getElem?_eq_some.1 hc with ⟨hl, _⟩
        exact hl
      have h1 : Step s { s with msgChans := s.msgChans.set ch c1 } :=
        Step.recvMessage s _ ch x (by simp [recvMessage, hc, hrecv])
      have h2 : Step { s with msgChans := s.msgChans.set ch c1 }
          { s with msgChans := (s.msgChans.set ch c1).set ch c' } :=
        Step.sendMessage { s with msgChans := s.msgChans.set ch c1 } (k, ch) c1 c' v hmem
          (List.getElem?_set_self hlt) hsend
      rw [List.set_set] at h2
      have h3 := ih { s with msgChans := s.msgChans.set ch c' }
        (fun e he => hes e (List.mem_cons_of_mem _ he))
      exact Relation.ReflTransGen.head h1 (Relation.ReflTransGen.head h2 h3)

/-- The effect of `createUser`, however it ends, is a sequence of steps. -/
theorem createUser_steps (sadd : Option Error) (o : LoopRun) (s : GraphQLServer) (u : String) :
    Steps s (createUser sadd o s u).state := by
  cases sadd with
  | some e => exact Relation.ReflTransGen.refl
  | none =>
    rw [createUser_ok o s u _ (SAdd_none _ u)]
    have h1 : Step s { s with redisClient :=
        (if u ∈ s.redisClient.users then s.redisClient
          else { s.redisClient with users := u :: s.redisClient.users }) } := Step.store s _
    have h2 := rangeSend_steps_user (o.visit s.userChannels) o.receives
      { s with redisClient :=
        (if u ∈ s.redisClient.users then s.redisClient
          else { s.redisClient with users := u :: s.redisClient.users }) } u
      (fun e he => (o.perm _).mem_iff.1 he)
    have h3 := Relation.ReflTransGen.head h1 h2
    cases hs : rangeSend (o.visit s.userChannels) o.receives s.usrChans u with
    | blocked h => simp only [hs, Sent.heap] at h3; exact h3
    | done h => simp only [hs, Sent.heap] at h3; exact h3

/-- The effect of `PostMessage`, however it ends, is a sequence of steps. -/
theorem PostMessage_steps (c : Codec) (env : PostEnv) (s : GraphQLServer) (a t : String) :
    Steps s (PostMessage c env s a t).state := by
  have hcu := createUser_steps env.sadd env.order1 s a
  cases h1 : createUser env.sadd env.order1 s a with
  | blocked s1 =>
    have : PostMessage c env s a t = .blocked s1 := by unfold PostMessage; rw [h1]
    rw [this]; rw [h1] at hcu; exact hcu
  | returned val s1 =>
    cases val with
    | error e =>
      have : PostMessage c env s a t = .returned (.error e) s1 := by
        unfold PostMessage; rw [h1]
      rw [this]; rw [h1] at hcu; exact hcu
    | ok x =>
      cases x
      rw [h1] at hcu
      simp only [Outcome.state] at hcu
      have hu := rangeSend_steps_user (env.order2.visit s1.userChannels) env.order2.receives s1 a
        (fun e he => (env.order2.perm _).mem_iff.1 he)
      cases h2 : rangeSend (env.order2.visit s1.userChannels) env.order2.receives s1.usrChans a with
      | blocked hh =>
        have : PostMessage c env s a t = .blocked { s1 with usrChans := hh } := by
          unfold PostMessage; rw [h1]; simp only [h2]
        rw [this]
        rw [h2] at hu
        exact Relation.ReflTransGen.trans hcu hu
      | done hh =>
        rw [h2] at hu
        simp only [Sent.heap] at hu
        have h12 := Relation.ReflTransGen.trans hcu hu
        rw [PostMessage_of_ensured c env s s1 a t hh h1 h2]
        cases hl : env.lpush with
        | some e => exact h12
        | none =>
          simp only [Redis.LPush]
          have h3 : Step { s1 with usrChans := hh }
              { s1 with usrChans := hh, redisClient :=
                { s1.redisClient with messages :=
                  (c.Marshal ⟨env.id, env.now, t, a⟩) :: s1.redisClient.messages } } := Step.store _ _
          have h4 := rangeSend_steps_message (env.order3.visit s1.messageChannels) env.order3.receives
            { s1 with usrChans := hh, redisClient :=
                { s1.redisClient with messages :=
                  (c.Marshal ⟨env.id, env.now, t, a⟩) :: s1.redisClient.messages } }
            { ID := env.id, CreatedAt := env.now, Text := t, User := a }
            (fun e he => (env.order3.perm _).mem_iff.1 he)
          have h1234 := Relation.ReflTransGen.trans h12 (Relation.ReflTransGen.head h3 h4)
          cases h5 : rangeSend (env.order3.visit s1.messageChannels) env.order3.receives s1.msgChans
              { ID := env.id, CreatedAt := env.now, Text := t, User := a } with
          | blocked h' => simp only [h5, Sent.heap] at h1234; exact h1234
          | done h' => simp only [h5, Sent.heap] at h1234; exact h1234

/-- The effect of `MessagePosted`, however it ends, is a sequence of steps. -/
theorem MessagePosted_steps (sadd : Option Error) (o : LoopRun) (s : GraphQLServer)
    (u : String) : Steps s (MessagePosted sadd o s u).state := by
  have hcu := createUser_steps sadd o s u
  unfold MessagePosted
  cases h1 : createUser sadd o s u with
  | blocked s1 => rw [h1] at hcu; exact hcu
  | returned val s1 =>
    cases val with
    | error e => rw [h1] at hcu; exact hcu
    | ok x =>
      cases x
      rw [h1] at hcu
      exact Relation.ReflTransGen.tail hcu (Step.registerMessage s1 u)

/-- The effect of `UserJoined`, however it ends, is a sequence of steps. -/
theorem UserJoined_steps (sadd : Option Error) (o : LoopRun) (s : GraphQLServer)
    (u : String) : Steps s (UserJoined sadd o s u).state := by
  have hcu := createUser_steps sadd o s u
  unfold UserJoined
  cases h1 : createUser sadd o s u with
  | blocked s1 => rw [h1] at hcu; exact hcu
  | returned val s1 =>
    cases val with
    | error e => rw [h1] at hcu; exact hcu
    | ok x =>
      cases x
      rw [h1] at hcu
      exact Relation.ReflTransGen.tail hcu (Step.registerUser s1 u)

/-! ## Posting a message -/

theorem visit_nil (o : LoopRun) : o.visit [] = [] :=
  List.Perm.eq_nil (o.perm [])

/-- With no user-joined channel registered and a working `SADD`, `createUser`
returns `nil` and only the store changes. -/
theorem createUser_no_watchers (o : LoopRun) (s : GraphQLServer) (u : String)
    (husr : s.userChannels = []) :
    createUser none o s u = .returned (.ok ())
      { s with redisClient :=
          (if u ∈ s.redisClient.users then s.redisClient
            else { s.redisClient with users := u :: s.redisClient.users }) } := by
  rw [createUser_ok o s u _ (SAdd_none _ u), husr, visit_nil]
  rfl

/-- All registered channels have room: the loop completes and each gains the
event. -/
theorem rangeSend_registered {α : Type} (o : LoopRun) (m : GoMap) (heap : List (Chan α))
    (v : α) (hnd : (m.map Prod.snd).Nodup) (hvalid : ∀ e ∈ m, e.2 < heap.length)
    (hroom : ∀ e ∈ m, ∀ c, heap[e.2]? = some c → ¬ c.full) :
    ∃ h', rangeSend (o.visit m) o.receives heap v = .done h' ∧
      ∀ e ∈ m, ∀ c, heap[e.2]? = some c → h'[e.2]? = some { c with buf := c.buf ++ [v] } := by
  have hroom' : ∀ e ∈ o.visit m, ∃ c, heap[e.2]? = some c ∧ ¬ c.full := by
    intro e he
    have hem := (o.perm m).mem_iff.1 he
    have hlt := hvalid e hem
    exact ⟨heap[e.2], List.getElem?_eq_getElem hlt,
      hroom e hem _ (List.getElem?_eq_getElem hlt)⟩
  obtain ⟨h', hdone, hpt⟩ :=
    rangeSend_done (o.visit m) o.receives heap v (visit_refs_nodup o m hnd) hroom'
  exact ⟨h', hdone, fun e he => hpt e ((o.perm m).mem_iff.2 he)⟩

/-- In a well-formed registry whose channels have capacity 1 and at most one
element, a loop completes when the consumer of every registered channel
receives. -/
theorem rangeSend_registered_live {α : Type} (o : LoopRun) (m : GoMap)
    (heap : List (Chan α)) (v : α) (hnd : (m.map Prod.snd).Nodup)
    (hvalid : ∀ e ∈ m, e.2 < heap.length)
    (hb : ∀ c ∈ heap, c.cap = 1 ∧ c.buf.length ≤ 1)
    (hlive : ∀ e ∈ m, ∀ c, heap[e.2]? = some c → c.full → o.receives e.2 = true) :
    ∃ h', rangeSend (o.visit m) o.receives heap v = .done h' := by
  apply rangeSend_live (o.visit m) o.receives heap v (visit_refs_nodup o m hnd)
  intro e he
  have hem := (o.perm m).mem_iff.1 he
  have hlt := hvalid e hem
  refine ⟨heap[e.2], List.getElem?_eq_getElem hlt, ?_⟩
  by_cases hf : (heap[e.2]).full
  · exact Or.inr ⟨hlive e hem _ (List.getElem?_eq_getElem hlt) hf,
      hb _ (List.getElem_mem hlt)⟩
  · exact Or.inl hf

/-- With no user-joined channel registered, no registered message channel full and
working store commands, `PostMessage` returns its message, and every registered
message channel gains it. -/
theorem PostMessage_all_room (c : Codec) (env : PostEnv) (s : GraphQLServer)
    (a t : String) (hwf : WF s) (hsadd : env.sadd = none) (hlpush : env.lpush = none)
    (husr : s.userChannels = [])
    (hroom : ∀ e ∈ s.messageChannels, ∀ ch, s.msgChans[e.2]? = some ch → ¬ ch.full) :
    ∃ s', PostMessage c env s a t =
        .returned (.ok { ID := env.id, CreatedAt := env.now, Text := t, User := a }) s' ∧
      ∀ e ∈ s.messageChannels, ∀ old, msgBuf s e.2 = some old →
        msgBuf s' e.2 =
          some (old ++ [{ ID := env.id, CreatedAt := env.now, Text := t, User := a }]) := by
  have h1 := createUser_no_watchers env.order1 s a husr
  rw [← hsadd] at h1
  have h2 : rangeSend (env.order2.visit s.userChannels) env.order2.receives s.usrChans a =
      .done s.usrChans := by
    rw [husr, visit_nil]; rfl
  obtain ⟨h', hdone, hpt⟩ := rangeSend_registered env.order3 s.messageChannels s.msgChans
    ({ ID := env.id, CreatedAt := env.now, Text := t, User := a } : Message)
    hwf.msgRefs hwf.msgValid hroom
  have hpm := PostMessage_of_ensured c env s _ a t s.usrChans h1 h2
  simp only [hlpush, Redis.LPush, hdone] at hpm
  refine ⟨_, hpm, ?_⟩
  intro e he old hold
  unfold msgBuf at hold ⊢
  cases hc : s.msgChans[e.2]? with
  | none => rw [hc] at hold; simp at hold
  | some c0 =>
    rw [hc] at hold
    simp only [Option.map_some', Option.some.injEq] at hold
    have := hpt e he c0 hc
    simp only [] at this
    rw [this, ← hold]
    rfl

/-- Claim C1, amended.  In a well-formed registry with no user-joined channel
registered and no registered message channel full, a `PostMessage(a, t)` whose store
commands succeed returns a message with `User = a` and `Text = t`, and the channel
registered for any identity gains exactly that one event. -/
theorem PostMessage_delivers_once (c : Codec) (env : PostEnv) (s : GraphQLServer)
    (a t : String) (hwf : WF s) (hsadd : env.sadd = none) (hlpush : env.lpush = none)
    (husr : s.userChannels = [])
    (hroom : ∀ e ∈ s.messageChannels, ∀ ch, s.msgChans[e.2]? = some ch → ¬ ch.full) :
    ∃ m s', PostMessage c env s a t = .returned (.ok m) s' ∧ m.User = a ∧ m.Text = t ∧
      ∀ sub ch old, mapGet s.messageChannels sub = some ch → msgBuf s ch = some old →
        msgBuf s' ch = some (old ++ [m]) := by
  obtain ⟨s', hpm, hall⟩ := PostMessage_all_room c env s a t hwf hsadd hlpush husr hroom
  exact ⟨_, s', hpm, rfl, rfl, fun sub ch old hget hold =>
    hall (sub, ch) (mem_of_mapGet _ _ _ hget) old hold⟩

/-- The run of the spec's scenario for `PostMessage_delivers_once`: bob subscribes on
a new server, alice posts "yo"; bob's channel then holds exactly the returned
message. -/
theorem PostMessage_delivers_once_witness :
    ∃ m s', PostMessage plainJSON (calmEnv "id1") bobListens "alice" "yo" = .returned (.ok m) s' ∧
      m.User = "alice" ∧ m.Text = "yo" ∧ mapGet bobListens.messageChannels "bob" = some 0 ∧
      msgBuf s' 0 = some [m] := by
  obtain ⟨m, s', hpm, hu, ht, hall⟩ :=
    PostMessage_delivers_once plainJSON (calmEnv "id1") bobListens "alice" "yo"
      (WF_steps _ _ (WF_NewGraphQlServer emptyStore) (MessagePosted_steps _ _ _ _))
      rfl rfl (by decide) (by decide)
  exact ⟨m, s', hpm, hu, ht, by decide, hall "bob" 0 [] (by decide) (by decide)⟩

/-- Claim C1 as stated fails.  Bob's message channel is registered and empty, and
every store command succeeds, yet `PostMessage("alice", "yo")` puts nothing on it in
these runs, in which the consumers do not receive: (1) with carol subscribed to
user-joined events the call stays parked on its second send to carol's channel;
(2) with carol's message channel still holding an earlier message and visited first,
the call stays parked on carol's channel. -/
theorem PostMessage_skips_ready_subscriber :
    (mapGet bobListensCarolWatches.messageChannels "bob" = some 0 ∧
      bobListensCarolWatches.msgChans[0]? = some { cap := 1, buf := [] } ∧
      PostMessage plainJSON (calmEnv "id2") bobListensCarolWatches "alice" "yo" =
        .blocked (PostMessage plainJSON (calmEnv "id2") bobListensCarolWatches "alice" "yo").state ∧
      msgBuf (PostMessage plainJSON (calmEnv "id2") bobListensCarolWatches "alice" "yo").state 0
        = some []) ∧
    (mapGet carolBehind.messageChannels "bob" = some 1 ∧
      carolBehind.msgChans[1]? = some { cap := 1, buf := [] } ∧
      PostMessage plainJSON (calmEnvReversed "id2") carolBehind "alice" "yo" =
        .blocked (PostMessage plainJSON (calmEnvReversed "id2") carolBehind "alice" "yo").state ∧
      msgBuf (PostMessage plainJSON (calmEnvReversed "id2") carolBehind "alice" "yo").state 1
        = some []) := by
  decide

/-! ## A full channel makes the sender wait -/

/-- What `createUser` leaves of the message side. -/
theorem createUser_message_side (sadd : Option Error) (o : LoopRun) (s s1 : GraphQLServer)
    (u : String) (h : createUser sadd o s u = .returned (.ok ()) s1) :
    s1.messageChannels = s.messageChannels ∧ s1.msgChans = s.msgChans := by
  obtain ⟨_, _, _, hmc, _, hmh⟩ := createUser_returned _ _ _ _ _ h
  exact ⟨hmc, hmh⟩

/-- Claim C2, amended.  Take a `PostMessage` call that gets as far as its message
loop, in a well-formed registry whose channels have capacity 1.  (1) If a registered
message channel is full and its consumer does not receive, the call does not
return: it stays parked on a send.  (2) If the consumer of every full registered
channel receives, the call returns its message.  (3) Whenever the call returns, no
event was dropped: every registered channel that had room holds what it held and the
event, and every registered channel that was full holds the event in place of the
element its consumer received.  (4) However the call ends, a full channel whose
consumer does not receive keeps its content. -/
theorem PostMessage_waits_on_full (c : Codec) (env : PostEnv) (s s1 : GraphQLServer)
    (a t : String) (h : List (Chan String)) (hwf : WF s) (hbd : Bounded s)
    (h1 : createUser env.sadd env.order1 s a = .returned (.ok ()) s1)
    (h2 : rangeSend (env.order2.visit s1.userChannels) env.order2.receives s1.usrChans a =
      .done h)
    (hlpush : env.lpush = none) :
    ((∃ e ∈ s.messageChannels, ∃ ch, s.msgChans[e.2]? = some ch ∧ ch.full ∧
          env.order3.receives e.2 = false) →
        ∃ s', PostMessage c env s a t = .blocked s') ∧
      ((∀ e ∈ s.messageChannels, ∀ ch, s.msgChans[e.2]? = some ch → ch.full →
          env.order3.receives e.2 = true) →
        ∃ s', PostMessage c env s a t =
          .returned (.ok { ID := env.id, CreatedAt := env.now, Text := t, User := a }) s') ∧
      (∀ m s', PostMessage c env s a t = .returned (.ok m) s' →
        ∀ e ∈ s.messageChannels, ∃ ch, s.msgChans[e.2]? = some ch ∧
          ((¬ ch.full ∧ msgBuf s' e.2 = some (ch.buf ++ [m])) ∨
            (ch.full ∧ env.order3.receives e.2 = true ∧ msgBuf s' e.2 = some [m]))) ∧
      (∀ (r : Nat) (ch : Chan Message), s.msgChans[r]? = some ch → ch.full →
        env.order3.receives r = false →
        (PostMessage c env s a t).state.msgChans[r]? = some ch) := by
  obtain ⟨hmc, hmh⟩ := createUser_message_side _ _ _ _ _ h1
  have hpm := PostMessage_of_ensured c env s s1 a t h h1 h2
  simp only [hlpush, Redis.LPush, hmc, hmh] at hpm
  refine ⟨?_, ?_, ?_, ?_⟩
  · rintro ⟨e, he, ch, hch, hfull, hrcv⟩
    obtain ⟨h', hb⟩ := rangeSend_blocked (env.order3.visit s.messageChannels)
      env.order3.receives s.msgChans
      ({ ID := env.id, CreatedAt := env.now, Text := t, User := a } : Message)
      ⟨e, (env.order3.perm _).mem_iff.2 he, hrcv, fun c0 hc0 => by
        rw [hch] at hc0; cases hc0; exact hfull⟩
    simp only [hb] at hpm
    exact ⟨_, hpm⟩
  · intro hlive
    obtain ⟨h', hd⟩ := rangeSend_registered_live env.order3 s.messageChannels s.msgChans
      ({ ID := env.id, CreatedAt := env.now, Text := t, User := a } : Message)
      hwf.msgRefs hwf.msgValid hbd.msg hlive
    simp only [hd] at hpm
    exact ⟨_, hpm⟩
  · intro m s' hret e he
    obtain ⟨_, _, _, _, hdone⟩ := PostMessage_returned c env s s' a t m hret
    obtain ⟨ch, hch, hres⟩ := rangeSend_done_delivered (env.order3.visit s.messageChannels)
      env.order3.receives s.msgChans s'.msgChans m (visit_refs_nodup _ _ hwf.msgRefs) hdone
      e ((env.order3.perm _).mem_iff.2 he)
    refine ⟨ch, hch, ?_⟩
    unfold msgBuf
    rcases hres with ⟨hnf, hnew⟩ | ⟨hf, hr, c', hsr, hnew⟩
    · left; exact ⟨hnf, by rw [hnew]; rfl⟩
    · right
      obtain ⟨hcap, hlen⟩ := hbd.msg ch (List.getElem?_mem hch)
      rw [sendAfterRecv_of_bounded ch m hcap hf hlen] at hsr
      cases hsr
      exact ⟨hf, hr, by rw [hnew]; rfl⟩
  · intro r ch hch hfull hrcv
    obtain ⟨_, _, hm, _⟩ := PostMessage_state c env s a t
    rcases hm with hm | hm
    · rw [hm]; exact hch
    · rw [hm]; exact rangeSend_full_unchanged _ _ _ _ r ch hch hfull hrcv

/-- A run of `PostMessage_waits_on_full`: carol watches and her consumer receives;
bob has not received alice's first message, and his consumer does not receive while
alice posts again. -/
theorem PostMessage_waits_on_full_witness :
    (∃ s', PostMessage plainJSON (watchersLiveEnv "id2") bobBehindCarolWatches "alice" "again"
        = .blocked s') ∧
      (PostMessage plainJSON (watchersLiveEnv "id2") bobBehindCarolWatches "alice"
          "again").state.msgChans[0]?
        = some { cap := 1, buf := [⟨"id1", "2019-05-01T10:00:00Z", "yo", "alice"⟩] } := by
  have hwf : WF bobBehindCarolWatches := WF_steps _ _ (WF_NewGraphQlServer emptyStore)
    (Relation.ReflTransGen.trans (MessagePosted_steps _ _ _ _)
      (Relation.ReflTransGen.trans (UserJoined_steps _ _ _ _) (PostMessage_steps _ _ _ _ _)))
  have hbd : Bounded bobBehindCarolWatches := Bounded_steps _ _
    (Bounded_NewGraphQlServer emptyStore)
    (Relation.ReflTransGen.trans (MessagePosted_steps _ _ _ _)
      (Relation.ReflTransGen.trans (UserJoined_steps _ _ _ _) (PostMessage_steps _ _ _ _ _)))
  have h := PostMessage_waits_on_full plainJSON (watchersLiveEnv "id2") bobBehindCarolWatches
    (createUser (watchersLiveEnv "id2").sadd (watchersLiveEnv "id2").order1
      bobBehindCarolWatches "alice").state
    "alice" "again" [{ cap := 1, buf := ["alice"] }] hwf hbd (by decide) (by decide) rfl
  exact ⟨h.1 ⟨("bob", 0), by decide,
      { cap := 1, buf := [⟨"id1", "2019-05-01T10:00:00Z", "yo", "alice"⟩] },
      by decide, by decide, by decide⟩,
    h.2.2.2 0 { cap := 1, buf := [⟨"id1", "2019-05-01T10:00:00Z", "yo", "alice"⟩] }
      (by decide) (by decide) (by decide)⟩

/-- Claim C2 as stated fails.  (1) Bob's channel still holds alice's first message
and his consumer does not receive; her next `PostMessage` does not complete, it is
parked on the send to bob's channel.  (2) In the run in which bob's consumer
receives, the call returns, and bob's channel holds the new event: the event was not
dropped and the content of the full channel changed.  (3) Carol's channel is full
and bob's is empty; with carol's visited first and her consumer not receiving, the
call parks there and bob's channel, which has room, receives nothing. -/
theorem PostMessage_full_channel_stops_broadcast :
    (bobBehind.msgChans[0]? =
        some { cap := 1, buf := [⟨"id1", "2019-05-01T10:00:00Z", "yo", "alice"⟩] } ∧
      PostMessage plainJSON (calmEnv "id2") bobBehind "alice" "again" =
        .blocked (PostMessage plainJSON (calmEnv "id2") bobBehind "alice" "again").state) ∧
    (PostMessage plainJSON (liveEnv "id2") bobBehind "alice" "again" =
        .returned (.ok ⟨"id2", "2019-05-01T10:00:00Z", "again", "alice"⟩)
          (PostMessage plainJSON (liveEnv "id2") bobBehind "alice" "again").state ∧
      msgBuf (PostMessage plainJSON (liveEnv "id2") bobBehind "alice" "again").state 0 =
        some [⟨"id2", "2019-05-01T10:00:00Z", "again", "alice"⟩]) ∧
    (mapGet carolBehind.messageChannels "carol" = some 0 ∧
      mapGet carolBehind.messageChannels "bob" = some 1 ∧
      msgBuf carolBehind 0 = some [⟨"id1", "2019-05-01T10:00:00Z", "hi", "dave"⟩] ∧
      msgBuf carolBehind 1 = some [] ∧
      PostMessage plainJSON (calmEnvReversed "id2") carolBehind "erin" "hello" =
        .blocked (PostMessage plainJSON (calmEnvReversed "id2") carolBehind "erin" "hello").state ∧
      msgBuf (PostMessage plainJSON (calmEnvReversed "id2") carolBehind "erin" "hello").state 1
        = some []) := by
  decide

/-! ## A failing append -/

/-- In a well-formed registry whose channels have capacity 1, with a working `SADD`
and with consumers that receive on every registered user-joined channel, a
`PostMessage` call gets as far as its `LPUSH`. -/
theorem PostMessage_reaches_append (env : PostEnv) (s : GraphQLServer) (a : String)
    (hwf : WF s) (hbd : Bounded s) (hsadd : env.sadd = none)
    (hlive : ∀ e ∈ s.userChannels,
      env.order1.receives e.2 = true ∧ env.order2.receives e.2 = true) :
    ∃ s1 h, createUser env.sadd env.order1 s a = .returned (.ok ()) s1 ∧
      rangeSend (env.order2.visit s1.userChannels) env.order2.receives s1.usrChans a =
        .done h := by
  obtain ⟨h1, hd1⟩ := rangeSend_registered_live env.order1 s.userChannels s.usrChans a
    hwf.usrRefs hwf.usrValid hbd.usr (fun e he _ _ _ => (hlive e he).1)
  have hcu := createUser_ok env.order1 s a _ (SAdd_none _ a)
  simp only [hd1] at hcu
  rw [← hsadd] at hcu
  have hsteps := createUser_steps env.sadd env.order1 s a
  rw [hcu] at hsteps
  simp only [Outcome.state] at hsteps
  have hwf1 := WF_steps _ _ hwf hsteps
  have hbd1 := Bounded_steps _ _ hbd hsteps
  obtain ⟨h2, hd2⟩ := rangeSend_registered_live env.order2 _ _ a
    hwf1.usrRefs hwf1.usrValid hbd1.usr (fun e he _ _ _ => (hlive e he).2)
  exact ⟨_, h2, hcu, hd2⟩

/-- Claim C3.  When the `LPUSH` of the serialized message fails with `e`: no message
channel changes and the map of message channels is as before, however the call
ends; the call returns no message; a call that gets as far as the `LPUSH` (its
`createUser` returned `nil` and its user-joined loop completed) returns the error
`e`; and the call does get that far, and returns `e`, in every well-formed registry
with channels of capacity 1 when `SADD` works and the consumers of the registered
user-joined channels receive (in particular when none is registered). -/
theorem PostMessage_append_fails (c : Codec) (env : PostEnv) (s : GraphQLServer)
    (a t : String) (e : Error) (hl : env.lpush = some e) :
    (PostMessage c env s a t).state.msgChans = s.msgChans ∧
      (PostMessage c env s a t).state.messageChannels = s.messageChannels ∧
      (∀ m s', PostMessage c env s a t ≠ .returned (.ok m) s') ∧
      (∀ s1 h, createUser env.sadd env.order1 s a = .returned (.ok ()) s1 →
        rangeSend (env.order2.visit s1.userChannels) env.order2.receives s1.usrChans a =
          .done h →
        PostMessage c env s a t = .returned (.error e) { s1 with usrChans := h }) ∧
      (env.sadd = none → s.userChannels = [] →
        ∃ s', PostMessage c env s a t = .returned (.error e) s') ∧
      (WF s → Bounded s → env.sadd = none →
        (∀ x ∈ s.userChannels,
          env.order1.receives x.2 = true ∧ env.order2.receives x.2 = true) →
        ∃ s', PostMessage c env s a t = .returned (.error e) s') := by
  have hreach : ∀ s1 h, createUser env.sadd env.order1 s a = .returned (.ok ()) s1 →
      rangeSend (env.order2.visit s1.userChannels) env.order2.receives s1.usrChans a =
        .done h →
      PostMessage c env s a t = .returned (.error e) { s1 with usrChans := h } := by
    intro s1 h h1 h2
    rw [PostMessage_of_ensured c env s s1 a t h h1 h2]
    simp only [hl, Redis.LPush]
  have hnomsg : ∀ m s', PostMessage c env s a t ≠ .returned (.ok m) s' := by
    intro m s' hpm
    have := (PostMessage_returned c env s s' a t m hpm).2.1
    rw [hl] at this
    cases this
  refine ⟨?_, (PostMessage_state c env s a t).1, hnomsg, hreach, ?_, ?_⟩
  · have hcu := createUser_state env.sadd env.order1 s a
    cases h1 : createUser env.sadd env.order1 s a with
    | blocked s1 =>
      have : PostMessage c env s a t = .blocked s1 := by unfold PostMessage; rw [h1]
      rw [this]; rw [h1] at hcu; exact hcu.2.2.1
    | returned val s1 =>
      cases val with
      | error e' =>
        have : PostMessage c env s a t = .returned (.error e') s1 := by
          unfold PostMessage; rw [h1]
        rw [this]; rw [h1] at hcu; exact hcu.2.2.1
      | ok x =>
        cases x
        rw [h1] at hcu
        cases h2 : rangeSend (env.order2.visit s1.userChannels) env.order2.receives
            s1.usrChans a with
        | blocked hh =>
          have : PostMessage c env s a t = .blocked { s1 with usrChans := hh } := by
            unfold PostMessage; rw [h1]; simp only [h2]
          rw [this]; exact hcu.2.2.1
        | done hh =>
          rw [hreach s1 hh h1 h2]; exact hcu.2.2.1
  · intro hsadd husr
    have h1 := createUser_no_watchers env.order1 s a husr
    rw [← hsadd] at h1
    have h2 : rangeSend (env.order2.visit s.userChannels) env.order2.receives s.usrChans a =
        .done s.usrChans := by
      rw [husr, visit_nil]; rfl
    exact ⟨_, hreach _ _ h1 h2⟩
  · intro hwf hbd hsadd hlive
    obtain ⟨s1, h, h1, h2⟩ := PostMessage_reaches_append env s a hwf hbd hsadd hlive
    exact ⟨_, hreach s1 h h1 h2⟩

/-- A run of `PostMessage_append_fails`: carol watches and her consumer receives, bob
has not received alice's first message; alice posts again and `LPUSH` fails.  The
call returns the error and bob's channel is as it was. -/
theorem PostMessage_append_fails_witness :
    (PostMessage plainJSON (lpushFailsLiveEnv "id2") bobBehindCarolWatches "alice"
        "again").state.msgChans = bobBehindCarolWatches.msgChans ∧
      (∀ m s', PostMessage plainJSON (lpushFailsLiveEnv "id2") bobBehindCarolWatches "alice"
        "again" ≠ .returned (.ok m) s') ∧
      mapGet bobBehindCarolWatches.userChannels "carol" = some 0 ∧
      ∃ s', PostMessage plainJSON (lpushFailsLiveEnv "id2") bobBehindCarolWatches "alice"
        "again" = .returned (.error "connection refused") s' := by
  have hsteps : Steps (NewGraphQlServer emptyStore) bobBehindCarolWatches :=
    Relation.ReflTransGen.trans (MessagePosted_steps _ _ _ _)
      (Relation.ReflTransGen.trans (UserJoined_steps _ _ _ _) (PostMessage_steps _ _ _ _ _))
  have h := PostMessage_append_fails plainJSON (lpushFailsLiveEnv "id2")
    bobBehindCarolWatches "alice" "again" "connection refused" rfl
  exact ⟨h.1, h.2.2.1, by decide,
    h.2.2.2.2.2 (WF_steps _ _ (WF_NewGraphQlServer emptyStore) hsteps)
      (Bounded_steps _ _ (Bounded_NewGraphQlServer emptyStore) hsteps) rfl
      (fun x _ => ⟨rfl, rfl⟩)⟩

/-! ## Subscriptions -/

/-- A `MessagePosted` call that returns a channel has appended it to the heap and
stored it under the identity. -/
theorem MessagePosted_returned (sadd : Option Error) (o : LoopRun) (s s' : GraphQLServer)
    (u : String) (ch : Nat) (h : MessagePosted sadd o s u = .returned (.ok ch) s') :
    ch = s.msgChans.length ∧ s'.msgChans = s.msgChans ++ [Chan.make 1] ∧
      s'.messageChannels = mapSet s.messageChannels u ch ∧
      s'.userChannels = s.userChannels := by
  unfold MessagePosted at h
  cases h1 : createUser sadd o s u with
  | blocked s1 => rw [h1] at h; simp at h
  | returned val s1 =>
    cases val with
    | error e => rw [h1] at h; simp at h
    | ok x =>
      cases x
      obtain ⟨_, _, _, hmc, huc, hmh⟩ := createUser_returned _ _ _ _ _ h1
      rw [h1] at h
      simp only [Outcome.returned.injEq, Except.ok.injEq] at h
      obtain ⟨hch, hs'⟩ := h
      subst hs'
      subst hch
      simp [hmc, huc, hmh]

/-- A `UserJoined` call that returns a channel has appended it to the heap and
stored it under the identity. -/
theorem UserJoined_returned (sadd : Option Error) (o : LoopRun) (s s' : GraphQLServer)
    (u : String) (ch : Nat) (h : UserJoined sadd o s u = .returned (.ok ch) s') :
    ch = s.usrChans.length ∧ s'.usrChans.length = s.usrChans.length + 1 ∧
      s'.usrChans[ch]? = some (Chan.make 1) ∧
      s'.userChannels = mapSet s.userChannels u ch ∧
      s'.messageChannels = s.messageChannels ∧ s'.msgChans = s.msgChans := by
  unfold UserJoined at h
  cases h1 : createUser sadd o s u with
  | blocked s1 => rw [h1] at h; simp at h
  | returned val s1 =>
    cases val with
    | error e => rw [h1] at h; simp at h
    | ok x =>
      cases x
      obtain ⟨_, hdone, _, hmc, huc, hmh⟩ := createUser_returned _ _ _ _ _ h1
      have hlen : s1.usrChans.length = s.usrChans.length := by
        have := rangeSend_length (o.visit s.userChannels) o.receives s.usrChans u
        rw [hdone] at this
        exact this
      rw [h1] at h
      simp only [Outcome.returned.injEq, Except.ok.injEq] at h
      obtain ⟨hch, hs'⟩ := h
      subst hs'
      subst hch
      simp [hmc, huc, hmh, hlen]

theorem filter_mapSet (m : GoMap) (u : String) (ch : Nat) :
    (mapSet m u ch).filter (fun e => decide (e.1 = u)) = [(u, ch)] := by
  unfold mapSet
  rw [List.filter_cons_of_pos (by simp)]
  congr 1
  rw [List.filter_eq_nil_iff]
  intro e he
  simpa using ((mem_mapDelete m u e).1 he).2

/-- Claim C5.  A `MessagePosted(u)` call that returns a channel `ch` leaves the
message map with exactly one entry for `u`, holding `ch`; `ch` is a channel that did
not exist before (so none of those the map held), it is empty and has capacity 1;
the entries of the other identities, and the contents of all earlier message
channels, are as before.  `UserJoined(u)` does the same for the user-joined map. -/
theorem subscribe_stores_fresh_channel (sadd : Option Error) (o : LoopRun)
    (s : GraphQLServer) (u : String) (hwf : WF s) :
    (∀ ch s', MessagePosted sadd o s u = .returned (.ok ch) s' →
        mapGet s'.messageChannels u = some ch ∧
        s'.messageChannels.filter (fun e => decide (e.1 = u)) = [(u, ch)] ∧
        s.msgChans[ch]? = none ∧ (∀ e ∈ s.messageChannels, e.2 ≠ ch) ∧
        s'.msgChans[ch]? = some { cap := 1, buf := [] } ∧
        (∀ k, k ≠ u → mapGet s'.messageChannels k = mapGet s.messageChannels k) ∧
        (∀ (r : Nat) (c : Chan Message), s.msgChans[r]? = some c → s'.msgChans[r]? = some c)) ∧
      (∀ ch s', UserJoined sadd o s u = .returned (.ok ch) s' →
        mapGet s'.userChannels u = some ch ∧
        s'.userChannels.filter (fun e => decide (e.1 = u)) = [(u, ch)] ∧
        s.usrChans[ch]? = none ∧ (∀ e ∈ s.userChannels, e.2 ≠ ch) ∧
        s'.usrChans[ch]? = some { cap := 1, buf := [] } ∧
        (∀ k, k ≠ u → mapGet s'.userChannels k = mapGet s.userChannels k)) := by
  constructor
  · intro ch s' h
    obtain ⟨hch, hheap, hmap, _⟩ := MessagePosted_returned sadd o s s' u ch h
    refine ⟨?_, ?_, ?_, ?_, ?_, ?_, ?_⟩
    · rw [hmap]; exact mapGet_mapSet_self _ _ _
    · rw [hmap]; exact filter_mapSet _ _ _
    · rw [hch]; exact List.getElem?_eq_none (Nat.le_refl _)
    · intro e he hh
      have := hwf.msgValid e he
      omega
    · rw [hheap, hch, List.getElem?_concat_length]; rfl
    · intro k hk
      rw [hmap]; exact mapGet_mapSet_ne _ _ _ _ hk
    · intro r c hc
      rw [hheap]
      rcases List.getElem?_eq_some.1 hc with ⟨hl, _⟩
      rw [List.getElem?_append_left hl]
      exact hc
  · intro ch s' h
    obtain ⟨hch, _, hnew, hmap, _, _⟩ := UserJoined_returned sadd o s s' u ch h
    refine ⟨?_, ?_, ?_, ?_, ?_, ?_⟩
    · rw [hmap]; exact mapGet_mapSet_self _ _ _
    · rw [hmap]; exact filter_mapSet _ _ _
    · rw [hch]; exact List.getElem?_eq_none (Nat.le_refl _)
    · intro e he hh
      have := hwf.usrValid e he
      omega
    · rw [hnew]; rfl
    · intro k hk
      rw [hmap]; exact mapGet_mapSet_ne _ _ _ _ hk

/-- A run of `subscribe_stores_fresh_channel`: bob subscribes again while his first
channel still holds a message, and subscribes to user-joined events. -/
theorem subscribe_stores_fresh_channel_witness :
    (MessagePosted none LoopRun.listed bobBehind "bob" =
        .returned (.ok 1) (MessagePosted none LoopRun.listed bobBehind "bob").state ∧
      mapGet (MessagePosted none LoopRun.listed bobBehind "bob").state.messageChannels "bob"
        = some 1 ∧
      bobBehind.msgChans[1]? = none ∧
      (MessagePosted none LoopRun.listed bobBehind "bob").state.msgChans[1]?
        = some { cap := 1, buf := [] }) ∧
    (UserJoined none LoopRun.listed bobBehind "bob" =
        .returned (.ok 0) (UserJoined none LoopRun.listed bobBehind "bob").state ∧
      mapGet (UserJoined none LoopRun.listed bobBehind "bob").state.userChannels "bob"
        = some 0 ∧
      (UserJoined none LoopRun.listed bobBehind "bob").state.usrChans[0]?
        = some { cap := 1, buf := [] }) := by
  have hwf : WF bobBehind := WF_steps _ _ (WF_NewGraphQlServer emptyStore)
    (Relation.ReflTransGen.trans (MessagePosted_steps _ _ _ _) (PostMessage_steps _ _ _ _ _))
  have h := subscribe_stores_fresh_channel none LoopRun.listed bobBehind "bob" hwf
  have h1 := h.1 1 (MessagePosted none LoopRun.listed bobBehind "bob").state (by decide)
  have h2 := h.2 0 (UserJoined none LoopRun.listed bobBehind "bob").state (by decide)
  exact ⟨⟨by decide, h1.1, h1.2.2.1, h1.2.2.2.2.1⟩, ⟨by decide, h2.1, h2.2.2.2.2.1⟩⟩

/-! ## Cancellation -/

/-- Steps keep this about a message channel `ch`: it is allocated, every channel in
the map is allocated, and `ch` is in the map only under keys that satisfy `P`. -/
theorem step_keeps_message_owner (P : String → Prop) (ch : Nat) (s s' : GraphQLServer)
    (hstep : Step s s')
    (h : ch < s.msgChans.length ∧ (∀ e ∈ s.messageChannels, e.2 < s.msgChans.length) ∧
      (∀ e ∈ s.messageChannels, e.2 = ch → P e.1)) :
    ch < s'.msgChans.length ∧ (∀ e ∈ s'.messageChannels, e.2 < s'.msgChans.length) ∧
      (∀ e ∈ s'.messageChannels, e.2 = ch → P e.1) := by
  obtain ⟨hlt, hvalid, hown⟩ := h
  cases hstep with
  | store r => exact ⟨hlt, hvalid, hown⟩
  | sendUser e c c' v he hc hs => exact ⟨hlt, hvalid, hown⟩
  | sendMessage e c c' v he hc hs =>
    exact ⟨by simpa using hlt, by simpa using hvalid, hown⟩
  | recvUser s1 r v hr =>
    obtain ⟨c', rfl⟩ := recvUser_eq s _ r v hr
    exact ⟨hlt, hvalid, hown⟩
  | recvMessage s1 r v hr =>
    obtain ⟨c', rfl⟩ := recvMessage_eq s _ r v hr
    exact ⟨by simpa using hlt, by simpa using hvalid, hown⟩
  | registerMessage user =>
    refine ⟨by simp only [List.length_append, List.length_singleton]; omega, ?_, ?_⟩
    · intro e he
      simp only [List.length_append, List.length_singleton]
      rcases mem_mapSet _ _ _ e he with h | h
      · rw [h]; simp
      · exact Nat.lt_succ_of_lt (hvalid e h.1)
    · intro e he hech
      rcases mem_mapSet _ _ _ e he with h | h
      · rw [h] at hech
        simp only [] at hech
        omega
      · exact hown e h.1 hech
  | registerUser user => exact ⟨hlt, hvalid, hown⟩
  | cleanupMessage user =>
    exact ⟨hlt, fun e he => hvalid e ((mem_mapDelete _ _ e).1 he).1,
      fun e he => hown e ((mem_mapDelete _ _ e).1 he).1⟩
  | cleanupUser user => exact ⟨hlt, hvalid, hown⟩

/-- The same for a user-joined channel. -/
theorem step_keeps_user_owner (P : String → Prop) (ch : Nat) (s s' : GraphQLServer)
    (hstep : Step s s')
    (h : ch < s.usrChans.length ∧ (∀ e ∈ s.userChannels, e.2 < s.usrChans.length) ∧
      (∀ e ∈ s.userChannels, e.2 = ch → P e.1)) :
    ch < s'.usrChans.length ∧ (∀ e ∈ s'.userChannels, e.2 < s'.usrChans.length) ∧
      (∀ e ∈ s'.userChannels, e.2 = ch → P e.1) := by
  obtain ⟨hlt, hvalid, hown⟩ := h
  cases hstep with
  | store r => exact ⟨hlt, hvalid, hown⟩
  | sendMessage e c c' v he hc hs => exact ⟨hlt, hvalid, hown⟩
  | sendUser e c c' v he hc hs =>
    exact ⟨by simpa using hlt, by simpa using hvalid, hown⟩
  | recvMessage s1 r v hr =>
    obtain ⟨c', rfl⟩ := recvMessage_eq s _ r v hr
    exact ⟨hlt, hvalid, hown⟩
  | recvUser s1 r v hr =>
    obtain ⟨c', rfl⟩ := recvUser_eq s _ r v hr
    exact ⟨by simpa using hlt, by simpa using hvalid, hown⟩
  | registerUser user =>
    refine ⟨by simp only [List.length_append, List.length_singleton]; omega, ?_, ?_⟩
    · intro e he
      simp only [List.length_append, List.length_singleton]
      rcases mem_mapSet _ _ _ e he with h | h
      · rw [h]; simp
      · exact Nat.lt_succ_of_lt (hvalid e h.1)
    · intro e he hech
      rcases mem_mapSet _ _ _ e he with h | h
      · rw [h] at hech
        simp only [] at hech
        omega
      · exact hown e h.1 hech
  | registerMessage user => exact ⟨hlt, hvalid, hown⟩
  | cleanupUser user =>
    exact ⟨hlt, fun e he => hvalid e ((mem_mapDelete _ _ e).1 he).1,
      fun e he => hown e ((mem_mapDelete _ _ e).1 he).1⟩
  | cleanupMessage user => exact ⟨hlt, hvalid, hown⟩

theorem steps_keep_message_owner (P : String → Prop) (ch : Nat) (s s' : GraphQLServer)
    (hsteps : Steps s s')
    (h : ch < s.msgChans.length ∧ (∀ e ∈ s.messageChannels, e.2 < s.msgChans.length) ∧
      (∀ e ∈ s.messageChannels, e.2 = ch → P e.1)) :
    ch < s'.msgChans.length ∧ (∀ e ∈ s'.messageChannels, e.2 < s'.msgChans.length) ∧
      (∀ e ∈ s'.messageChannels, e.2 = ch → P e.1) := by
  induction hsteps with
  | refl => exact h
  | tail _ hstep ih => exact step_keeps_message_owner P ch _ _ hstep ih

theorem steps_keep_user_owner (P : String → Prop) (ch : Nat) (s s' : GraphQLServer)
    (hsteps : Steps s s')
    (h : ch < s.usrChans.length ∧ (∀ e ∈ s.userChannels, e.2 < s.usrChans.length) ∧
      (∀ e ∈ s.userChannels, e.2 = ch → P e.1)) :
    ch < s'.usrChans.length ∧ (∀ e ∈ s'.userChannels, e.2 < s'.usrChans.length) ∧
      (∀ e ∈ s'.userChannels, e.2 = ch → P e.1) := by
  induction hsteps with
  | refl => exact h
  | tail _ hstep ih => exact step_keeps_user_owner P ch _ _ hstep ih

/-- Once the channel a `MessagePosted(u)` call returned has been cleaned up, it stays
out of the map. -/
theorem message_channel_stays_out (sadd : Option Error) (o : LoopRun)
    (s0 s1 s2 s4 : GraphQLServer) (u : String) (ch : Nat) (hwf : WF s0)
    (hsub : MessagePosted sadd o s0 u = .returned (.ok ch) s1) (h12 : Steps s1 s2)
    (h34 : Steps (MessagePosted_cleanup s2 u) s4) : ch ∉ s4.messageChannels.map Prod.snd := by
  obtain ⟨hch, hheap, hmap, _⟩ := MessagePosted_returned sadd o s0 s1 u ch hsub
  have hs1 : ch < s1.msgChans.length ∧ (∀ e ∈ s1.messageChannels, e.2 < s1.msgChans.length) ∧
      (∀ e ∈ s1.messageChannels, e.2 = ch → e.1 = u) := by
    rw [hheap, hmap]
    simp only [List.length_append, List.length_singleton]
    refine ⟨by omega, ?_, ?_⟩
    · intro e he
      rcases mem_mapSet _ _ _ e he with h | h
      · rw [h]; simp only []; omega
      · exact Nat.lt_succ_of_lt (hwf.msgValid e h.1)
    · intro e he hech
      rcases mem_mapSet _ _ _ e he with h | h
      · rw [h]
      · have := hwf.msgValid e h.1
        omega
  obtain ⟨hlt2, hvalid2, hown2⟩ := steps_keep_message_owner (fun k => k = u) ch s1 s2 h12 hs1
  have hs3 : ch < (MessagePosted_cleanup s2 u).msgChans.length ∧
      (∀ e ∈ (MessagePosted_cleanup s2 u).messageChannels,
        e.2 < (MessagePosted_cleanup s2 u).msgChans.length) ∧
      (∀ e ∈ (MessagePosted_cleanup s2 u).messageChannels, e.2 = ch → False) := by
    refine ⟨hlt2, fun e he => hvalid2 e ((mem_mapDelete _ _ e).1 he).1, ?_⟩
    intro e he hech
    have hmem := (mem_mapDelete _ _ e).1 he
    exact hmem.2 (hown2 e hmem.1 hech)
  obtain ⟨_, _, hun4⟩ := steps_keep_message_owner (fun _ => False) ch _ s4 h34 hs3
  intro hmem
  obtain ⟨e, he, hech⟩ := List.mem_map.1 hmem
  exact hun4 e he hech

/-- Once the channel a `UserJoined(u)` call returned has been cleaned up, it stays
out of the map. -/
theorem user_channel_stays_out (sadd : Option Error) (o : LoopRun)
    (s0 s1 s2 s4 : GraphQLServer) (u : String) (ch : Nat) (hwf : WF s0)
    (hsub : UserJoined sadd o s0 u = .returned (.ok ch) s1) (h12 : Steps s1 s2)
    (h34 : Steps (UserJoined_cleanup s2 u) s4) : ch ∉ s4.userChannels.map Prod.snd := by
  obtain ⟨hch, hlen, _, hmap, _, _⟩ := UserJoined_returned sadd o s0 s1 u ch hsub
  have hs1 : ch < s1.usrChans.length ∧ (∀ e ∈ s1.userChannels, e.2 < s1.usrChans.length) ∧
      (∀ e ∈ s1.userChannels, e.2 = ch → e.1 = u) := by
    rw [hlen, hmap]
    refine ⟨by omega, ?_, ?_⟩
    · intro e he
      rcases mem_mapSet _ _ _ e he with h | h
      · rw [h]; simp only []; omega
      · exact Nat.lt_succ_of_lt (hwf.usrValid e h.1)
    · intro e he hech
      rcases mem_mapSet _ _ _ e he with h | h
      · rw [h]
      · have := hwf.usrValid e h.1
        omega
  obtain ⟨hlt2, hvalid2, hown2⟩ := steps_keep_user_owner (fun k => k = u) ch s1 s2 h12 hs1
  have hs3 : ch < (UserJoined_cleanup s2 u).usrChans.length ∧
      (∀ e ∈ (UserJoined_cleanup s2 u).userChannels,
        e.2 < (UserJoined_cleanup s2 u).usrChans.length) ∧
      (∀ e ∈ (UserJoined_cleanup s2 u).userChannels, e.2 = ch → False) := by
    refine ⟨hlt2, fun e he => hvalid2 e ((mem_mapDelete _ _ e).1 he).1, ?_⟩
    intro e he hech
    have hmem := (mem_mapDelete _ _ e).1 he
    exact hmem.2 (hown2 e hmem.1 hech)
  obtain ⟨_, _, hun4⟩ := steps_keep_user_owner (fun _ => False) ch _ s4 h34 hs3
  intro hmem
  obtain ⟨e, he, hech⟩ := List.mem_map.1 hmem
  exact hun4 e he hech

/-- Claim C4.  Take the channel `ch` a `MessagePosted(u)` (respectively `UserJoined(u)`)
call returned, let the system run, and let the cleanup of that subscription run.
Right after the cleanup the map has no entry for `u`; and in whatever state the
system is later on, a `PostMessage` call leaves the content of `ch` as it is.
Running a cleanup for an identity that has no entry changes nothing. -/
theorem cleanup_ends_delivery (c : Codec) :
    (∀ sadd o s0 s1 s2 s4 u ch, WF s0 → MessagePosted sadd o s0 u = .returned (.ok ch) s1 →
        Steps s1 s2 → Steps (MessagePosted_cleanup s2 u) s4 →
        mapGet (MessagePosted_cleanup s2 u).messageChannels u = none ∧
        ∀ env a t, msgBuf (PostMessage c env s4 a t).state ch = msgBuf s4 ch) ∧
      (∀ sadd o s0 s1 s2 s4 u ch, WF s0 → UserJoined sadd o s0 u = .returned (.ok ch) s1 →
        Steps s1 s2 → Steps (UserJoined_cleanup s2 u) s4 →
        mapGet (UserJoined_cleanup s2 u).userChannels u = none ∧
        ∀ env a t, usrBuf (PostMessage c env s4 a t).state ch = usrBuf s4 ch) ∧
      (∀ s u, mapGet s.messageChannels u = none → MessagePosted_cleanup s u = s) ∧
      (∀ s u, mapGet s.userChannels u = none → UserJoined_cleanup s u = s) := by
  refine ⟨?_, ?_, ?_, ?_⟩
  · intro sadd o s0 s1 s2 s4 u ch hwf hsub h12 h34
    refine ⟨mapGet_mapDelete_self _ _, fun env a t => ?_⟩
    exact PostMessage_msg_frame c env s4 a t ch
      (message_channel_stays_out sadd o s0 s1 s2 s4 u ch hwf hsub h12 h34)
  · intro sadd o s0 s1 s2 s4 u ch hwf hsub h12 h34
    refine ⟨mapGet_mapDelete_self _ _, fun env a t => ?_⟩
    exact PostMessage_usr_frame c env s4 a t ch
      (user_channel_stays_out sadd o s0 s1 s2 s4 u ch hwf hsub h12 h34)
  · intro s u h
    unfold MessagePosted_cleanup
    rw [mapDelete_of_absent _ _ h]
  · intro s u h
    unfold UserJoined_cleanup
    rw [mapDelete_of_absent _ _ h]

/-- A run of `cleanup_ends_delivery`: bob subscribes on a new server, alice posts,
bob's subscription is cancelled; no later `PostMessage` touches bob's channel. -/
theorem cleanup_ends_delivery_witness :
    mapGet (MessagePosted_cleanup bobBehind "bob").messageChannels "bob" = none ∧
      ∀ env a t,
        msgBuf (PostMessage plainJSON env (MessagePosted_cleanup bobBehind "bob") a t).state 0
          = msgBuf (MessagePosted_cleanup bobBehind "bob") 0 :=
  (cleanup_ends_delivery plainJSON).1 none LoopRun.listed (NewGraphQlServer emptyStore)
    bobListens bobBehind (MessagePosted_cleanup bobBehind "bob") "bob" 0
    (WF_NewGraphQlServer emptyStore) (by decide) (PostMessage_steps _ _ _ _ _)
    Relation.ReflTransGen.refl

theorem outcome_state_eq {α : Type} (out : Outcome α) (v : Except Error α) (s : GraphQLServer)
    (h : out = .returned v s) : out.state = s := by
  rw [h]; rfl

/-- Deleting the key under which a channel is stored takes the channel out of a map
whose channels are pairwise different. -/
theorem not_mem_refs_mapDelete (m : GoMap) (u : String) (ch : Nat)
    (hnd : (m.map Prod.snd).Nodup) (hget : mapGet m u = some ch) :
    ch ∉ (mapDelete m u).map Prod.snd := by
  intro hmem
  obtain ⟨e, he, hech⟩ := List.mem_map.1 hmem
  obtain ⟨hem, hne⟩ := (mem_mapDelete m u e).1 he
  have huch := mem_of_mapGet m u ch hget
  have := List.inj_on_of_nodup_map hnd hem huch hech
  apply hne
  rw [this]

/-- Claim C10.  Let `MessagePosted(u)` return `ch1`, let the system run, let a
second `MessagePosted(u)` return `ch2`, let the system run again, and let the second
entry still be in place when the cleanup of the first subscription runs.  The two
channels differ, the second call left `ch2` under `u`, and the cleanup, which only
knows `u`, removes that entry: right after it the map has no entry for `u`, and in
whatever state the system is later on, a `PostMessage` call puts nothing on `ch2`.
The same holds for `UserJoined` and the user-joined map. -/
theorem cleanup_removes_newer_subscription (c : Codec) :
    (∀ sadd1 o1 sadd2 o2 s0 s1 s1' s2 s3 s4 u ch1 ch2, WF s0 →
        MessagePosted sadd1 o1 s0 u = .returned (.ok ch1) s1 → Steps s1 s1' →
        MessagePosted sadd2 o2 s1' u = .returned (.ok ch2) s2 →
        Steps s2 s3 → mapGet s3.messageChannels u = some ch2 →
        Steps (MessagePosted_cleanup s3 u) s4 →
        ch1 ≠ ch2 ∧ mapGet s2.messageChannels u = some ch2 ∧
        mapGet (MessagePosted_cleanup s3 u).messageChannels u = none ∧
        ∀ env a t, msgBuf (PostMessage c env s4 a t).state ch2 = msgBuf s4 ch2) ∧
      (∀ sadd1 o1 sadd2 o2 s0 s1 s1' s2 s3 s4 u ch1 ch2, WF s0 →
        UserJoined sadd1 o1 s0 u = .returned (.ok ch1) s1 → Steps s1 s1' →
        UserJoined sadd2 o2 s1' u = .returned (.ok ch2) s2 →
        Steps s2 s3 → mapGet s3.userChannels u = some ch2 →
        Steps (UserJoined_cleanup s3 u) s4 →
        ch1 ≠ ch2 ∧ mapGet s2.userChannels u = some ch2 ∧
        mapGet (UserJoined_cleanup s3 u).userChannels u = none ∧
        ∀ env a t, usrBuf (PostMessage c env s4 a t).state ch2 = usrBuf s4 ch2) := by
  constructor
  · intro sadd1 o1 sadd2 o2 s0 s1 s1' s2 s3 s4 u ch1 ch2 hwf h1 h11 h2 h23 hlive h34
    obtain ⟨hch1, hheap1, _, _⟩ := MessagePosted_returned sadd1 o1 s0 s1 u ch1 h1
    obtain ⟨hch2, _, hmap2, _⟩ := MessagePosted_returned sadd2 o2 s1' s2 u ch2 h2
    have h01 : Steps s0 s1 := by
      have := MessagePosted_steps sadd1 o1 s0 u
      rw [outcome_state_eq _ _ _ h1] at this
      exact this
    have h12 : Steps s1' s2 := by
      have := MessagePosted_steps sadd2 o2 s1' u
      rw [outcome_state_eq _ _ _ h2] at this
      exact this
    have hwf1 : WF s1 := WF_steps _ _ hwf h01
    have hwf3 : WF s3 :=
      WF_steps _ _ (WF_steps _ _ (WF_steps _ _ hwf1 h11) h12) h23
    have hlt1 : ch1 < s1'.msgChans.length :=
      (steps_keep_message_owner (fun _ => True) ch1 s1 s1' h11
        ⟨by rw [hheap1, hch1]; simp, hwf1.msgValid, fun _ _ _ => trivial⟩).1
    have hout : ch2 ∉ s4.messageChannels.map Prod.snd := by
      have hmem := mem_of_mapGet _ _ _ hlive
      have hun := not_mem_refs_mapDelete _ u ch2 hwf3.msgRefs hlive
      obtain ⟨_, _, hun4⟩ := steps_keep_message_owner (fun _ => False) ch2
        (MessagePosted_cleanup s3 u) s4 h34
        ⟨hwf3.msgValid _ hmem,
          fun e he => hwf3.msgValid e ((mem_mapDelete _ _ e).1 he).1,
          fun e he hech => hun (hech ▸ List.mem_map_of_mem Prod.snd he)⟩
      intro hin
      obtain ⟨e, he, hech⟩ := List.mem_map.1 hin
      exact hun4 e he hech
    refine ⟨?_, ?_, mapGet_mapDelete_self _ _, fun env a t => ?_⟩
    · omega
    · rw [hmap2]; exact mapGet_mapSet_self _ _ _
    · exact PostMessage_msg_frame c env s4 a t ch2 hout
  · intro sadd1 o1 sadd2 o2 s0 s1 s1' s2 s3 s4 u ch1 ch2 hwf h1 h11 h2 h23 hlive h34
    obtain ⟨hch1, hlen1, _, _, _, _⟩ := UserJoined_returned sadd1 o1 s0 s1 u ch1 h1
    obtain ⟨hch2, _, _, hmap2, _, _⟩ := UserJoined_returned sadd2 o2 s1' s2 u ch2 h2
    have h01 : Steps s0 s1 := by
      have := UserJoined_steps sadd1 o1 s0 u
      rw [outcome_state_eq _ _ _ h1] at this
      exact this
    have h12 : Steps s1' s2 := by
      have := UserJoined_steps sadd2 o2 s1' u
      rw [outcome_state_eq _ _ _ h2] at this
      exact this
    have hwf1 : WF s1 := WF_steps _ _ hwf h01
    have hwf3 : WF s3 :=
      WF_steps _ _ (WF_steps _ _ (WF_steps _ _ hwf1 h11) h12) h23
    have hlt1 : ch1 < s1'.usrChans.length :=
      (steps_keep_user_owner (fun _ => True) ch1 s1 s1' h11
        ⟨by rw [hlen1, hch1]; simp, hwf1.usrValid, fun _ _ _ => trivial⟩).1
    have hout : ch2 ∉ s4.userChannels.map Prod.snd := by
      have hmem := mem_of_mapGet _ _ _ hlive
      have hun := not_mem_refs_mapDelete _ u ch2 hwf3.usrRefs hlive
      obtain ⟨_, _, hun4⟩ := steps_keep_user_owner (fun _ => False) ch2
        (UserJoined_cleanup s3 u) s4 h34
        ⟨hwf3.usrValid _ hmem,
          fun e he => hwf3.usrValid e ((mem_mapDelete _ _ e).1 he).1,
          fun e he hech => hun (hech ▸ List.mem_map_of_mem Prod.snd he)⟩
      intro hin
      obtain ⟨e, he, hech⟩ := List.mem_map.1 hin
      exact hun4 e he hech
    refine ⟨?_, ?_, mapGet_mapDelete_self _ _, fun env a t => ?_⟩
    · omega
    · rw [hmap2]; exact mapGet_mapSet_self _ _ _
    · exact PostMessage_usr_frame c env s4 a t ch2 hout

/-- A run of `cleanup_removes_newer_subscription`, on a server where carol watches
and her consumer receives.  Bob subscribes to messages twice; the cancellation of his
first subscription unregisters the second, and a later post by alice does not reach
it.  Dave subscribes to user-joined events twice, with the same result. -/
theorem cleanup_removes_newer_subscription_witness :
    (mapGet carolWatches.userChannels "carol" = some 0 ∧
      MessagePosted none LoopRun.live carolWatches "bob" = .returned (.ok 0) bobTwice.1 ∧
      MessagePosted none LoopRun.live bobTwice.1 "bob" = .returned (.ok 1) bobTwice.2 ∧
      mapGet bobTwice.2.messageChannels "bob" = some 1 ∧
      mapGet (MessagePosted_cleanup bobTwice.2 "bob").messageChannels "bob" = none ∧
      ∀ env a t,
        msgBuf (PostMessage plainJSON env
          (PostMessage plainJSON (liveEnv "id1") (MessagePosted_cleanup bobTwice.2 "bob")
            "alice" "yo").state a t).state 1
          = msgBuf (PostMessage plainJSON (liveEnv "id1") (MessagePosted_cleanup bobTwice.2 "bob")
            "alice" "yo").state 1) ∧
    (UserJoined none LoopRun.live carolWatches "dave" = .returned (.ok 1) daveTwice.1 ∧
      UserJoined none LoopRun.live daveTwice.1 "dave" = .returned (.ok 2) daveTwice.2 ∧
      mapGet (UserJoined_cleanup daveTwice.2 "dave").userChannels "dave" = none ∧
      ∀ env a t,
        usrBuf (PostMessage plainJSON env (UserJoined_cleanup daveTwice.2 "dave") a t).state 2
          = usrBuf (UserJoined_cleanup daveTwice.2 "dave") 2) := by
  have hwf : WF carolWatches :=
    WF_steps _ _ (WF_NewGraphQlServer emptyStore) (UserJoined_steps _ _ _ _)
  have hm := (cleanup_removes_newer_subscription plainJSON).1 none LoopRun.live none
    LoopRun.live carolWatches bobTwice.1 bobTwice.1 bobTwice.2 bobTwice.2
    (PostMessage plainJSON (liveEnv "id1") (MessagePosted_cleanup bobTwice.2 "bob")
      "alice" "yo").state "bob" 0 1 hwf (by decide) Relation.ReflTransGen.refl (by decide)
    Relation.ReflTransGen.refl (by decide) (PostMessage_steps _ _ _ _ _)
  have hu := (cleanup_removes_newer_subscription plainJSON).2 none LoopRun.live none
    LoopRun.live carolWatches daveTwice.1 daveTwice.1 daveTwice.2 daveTwice.2
    (UserJoined_cleanup daveTwice.2 "dave") "dave" 1 2 hwf (by decide)
    Relation.ReflTransGen.refl (by decide) Relation.ReflTransGen.refl (by decide)
    Relation.ReflTransGen.refl
  exact ⟨⟨by decide, by decide, by decide, hm.2.1, hm.2.2.1, hm.2.2.2⟩,
    ⟨by decide, by decide, hu.2.2.1, hu.2.2.2⟩⟩

/-! ## Known users and user-joined events -/

theorem mem_users_of_SAdd (r r' : Redis) (u : String) (h : r.SAdd none u = .ok r') :
    u ∈ r'.users ∧ (r.users.Nodup → r'.users.Nodup) ∧ (u ∈ r.users → r' = r) := by
  rw [SAdd_none] at h
  simp only [Except.ok.injEq] at h
  subst h
  by_cases hu : u ∈ r.users
  · simp [hu]
  · simp only [hu, if_false, List.mem_cons, true_or, false_implies, and_true, true_and]
    intro hnd
    exact List.nodup_cons.2 ⟨hu, hnd⟩

/-- With a working `SADD` and room in every registered user-joined channel,
`createUser(u)` returns `nil`, `u` is a known user, and each registered user-joined
channel gains the event `u`; whether `u` was known before plays no part. -/
theorem createUser_broadcasts (o : LoopRun) (s : GraphQLServer) (u : String) (hwf : WF s)
    (hroom : ∀ e ∈ s.userChannels, ∀ ch, s.usrChans[e.2]? = some ch → ¬ ch.full) :
    ∃ s1, createUser none o s u = .returned (.ok ()) s1 ∧
      s.redisClient.SAdd none u = .ok s1.redisClient ∧
      ∀ e ∈ s.userChannels, ∀ old, usrBuf s e.2 = some old →
        usrBuf s1 e.2 = some (old ++ [u]) := by
  obtain ⟨h', hdone, hpt⟩ := rangeSend_registered o s.userChannels s.usrChans u
    hwf.usrRefs hwf.usrValid hroom
  have hcu := createUser_ok o s u _ (SAdd_none _ u)
  simp only [hdone] at hcu
  refine ⟨_, hcu, SAdd_none _ u, ?_⟩
  intro e he old hold
  unfold usrBuf at hold ⊢
  cases hc : s.usrChans[e.2]? with
  | none => rw [hc] at hold; simp at hold
  | some c0 =>
    rw [hc] at hold
    simp only [Option.map_some', Option.some.injEq] at hold
    have := hpt e he c0 hc
    simp only [] at this
    rw [this, ← hold]
    rfl

/-- When `createUser` has returned `nil`, the user-joined channels `PostMessage`
leaves are those its own user-joined loop left. -/
theorem PostMessage_usrChans_of_ensured (c : Codec) (env : PostEnv) (s s1 : GraphQLServer)
    (a t : String) (h1 : createUser env.sadd env.order1 s a = .returned (.ok ()) s1) :
    (PostMessage c env s a t).state.usrChans =
      (rangeSend (env.order2.visit s1.userChannels) env.order2.receives s1.usrChans a).heap := by
  cases h2 : rangeSend (env.order2.visit s1.userChannels) env.order2.receives s1.usrChans a with
  | blocked hh =>
    have : PostMessage c env s a t = .blocked { s1 with usrChans := hh } := by
      unfold PostMessage; rw [h1]; simp only [h2]
    rw [this]; rfl
  | done hh =>
    rw [PostMessage_of_ensured c env s s1 a t hh h1 h2]
    cases hl : env.lpush with
    | some e => rfl
    | none =>
      simp only [Redis.LPush]
      cases h3 : rangeSend (env.order3.visit s1.messageChannels) env.order3.receives s1.msgChans
          { ID := env.id, CreatedAt := env.now, Text := t, User := a } <;> rfl

/-- Claim C7, amended.  In a well-formed registry whose registered user-joined
channels have room, and with a working `SADD`, the ensure-known-user step of
`PostMessage(a, t)`, the call `createUser(a)`, returns `nil`, makes `a` a known user
and puts the event `a` exactly once on every registered user-joined channel, whether
`a` was a known user or not; so whatever way `PostMessage` then ends, each of these
channels holds at least that event after what it held (in the runs in which the
consumer of the channel does not receive during the call, and in all runs when the
channels have capacity 1). -/
theorem PostMessage_ensure_user_broadcasts (c : Codec) (env : PostEnv) (s : GraphQLServer)
    (a t : String) (hwf : WF s) (hsadd : env.sadd = none)
    (hroom : ∀ e ∈ s.userChannels, ∀ ch, s.usrChans[e.2]? = some ch → ¬ ch.full) :
    ∃ s1, createUser env.sadd env.order1 s a = .returned (.ok ()) s1 ∧
      a ∈ s1.redisClient.users ∧
      (∀ e ∈ s.userChannels, ∀ old, usrBuf s e.2 = some old →
        usrBuf s1 e.2 = some (old ++ [a])) ∧
      (∀ e ∈ s.userChannels, ∀ old, usrBuf s e.2 = some old →
        (env.order2.receives e.2 = false ∨ Bounded s) →
        ∃ more, usrBuf (PostMessage c env s a t).state e.2 = some (old ++ a :: more)) := by
  obtain ⟨s1, h1, hs1, hpt⟩ := createUser_broadcasts env.order1 s a hwf hroom
  rw [← hsadd] at h1
  refine ⟨s1, h1, (mem_users_of_SAdd _ _ a hs1).1, hpt, ?_⟩
  intro e he old hold hrun
  have hold1 := hpt e he old hold
  obtain ⟨_, _, _, _, huc, _⟩ := createUser_returned _ _ _ _ _ h1
  unfold usrBuf at hold hold1 ⊢
  rw [PostMessage_usrChans_of_ensured c env s s1 a t h1]
  cases hc : s1.usrChans[e.2]? with
  | none => rw [hc] at hold1; simp at hold1
  | some c1 =>
    rw [hc] at hold1
    simp only [Option.map_some', Option.some.injEq] at hold1
    rcases rangeSend_at_most_once (env.order2.visit s1.userChannels) env.order2.receives
      s1.usrChans a (visit_refs_nodup _ _ (by rw [huc]; exact hwf.usrRefs)) e.2 c1 hc with
      h | h | ⟨_, hr, c', hsr, h⟩
    · exact ⟨[], by rw [h]; simp [hold1]⟩
    · exact ⟨[a], by rw [h]; simp [hold1]⟩
    · rcases hrun with hq | hbd
      · rw [hq] at hr; cases hr
      · cases hc0 : s.usrChans[e.2]? with
        | none => rw [hc0] at hold; simp at hold
        | some c0 =>
          rw [hc0] at hold
          simp only [Option.map_some', Option.some.injEq] at hold
          have hnf := hroom e he c0 hc0
          obtain ⟨hcap, _⟩ := hbd.usr c0 (List.getElem?_mem hc0)
          unfold Chan.full at hnf
          simp only [not_not, hcap, Nat.lt_one_iff] at hnf
          have hnil : old = [] := by
            rw [← hold]
            exact List.length_eq_zero.1 hnf
          subst hnil
          obtain ⟨x, rest, hbuf, hc'⟩ := sendAfterRecv_eq_some c1 c' a hsr
          rw [hold1] at hbuf
          simp only [List.nil_append, List.cons.injEq] at hbuf
          refine ⟨[], ?_⟩
          rw [h, hc', ← hbuf.2]
          rfl

/-- A run of `PostMessage_ensure_user_broadcasts`: carol watches and alice, whom the
store already knows, posts. -/
theorem PostMessage_ensure_user_broadcasts_witness :
    ∃ s1, createUser (calmEnv "id1").sadd (calmEnv "id1").order1 carolWatchesAliceKnown "alice"
        = .returned (.ok ()) s1 ∧
      "alice" ∈ s1.redisClient.users ∧
      (∀ e ∈ carolWatchesAliceKnown.userChannels, ∀ old,
        usrBuf carolWatchesAliceKnown e.2 = some old →
        usrBuf s1 e.2 = some (old ++ ["alice"])) ∧
      (∀ e ∈ carolWatchesAliceKnown.userChannels, ∀ old,
        usrBuf carolWatchesAliceKnown e.2 = some old →
        ∃ more, usrBuf (PostMessage plainJSON (calmEnv "id1") carolWatchesAliceKnown
          "alice" "hi").state e.2 = some (old ++ "alice" :: more)) := by
  obtain ⟨s1, h1, h2, h3, h4⟩ :=
    PostMessage_ensure_user_broadcasts plainJSON (calmEnv "id1") carolWatchesAliceKnown
      "alice" "hi"
      (WF_steps _ _ (WF_NewGraphQlServer _) (UserJoined_steps _ _ _ _)) rfl (by decide)
  exact ⟨s1, h1, h2, h3, fun e he old hold => h4 e he old hold (Or.inl rfl)⟩

/-- Claim C7 as stated fails.  Alice is a known user and carol watches with an empty
channel; `PostMessage("alice", "hi")` puts the event "alice" on carol's channel (and
then, carol's consumer not receiving, stays parked on its second send to it). -/
theorem PostMessage_known_user_still_announced :
    "alice" ∈ carolWatchesAliceKnown.redisClient.users ∧
      mapGet carolWatchesAliceKnown.userChannels "carol" = some 0 ∧
      usrBuf carolWatchesAliceKnown 0 = some [] ∧
      PostMessage plainJSON (calmEnv "id1") carolWatchesAliceKnown "alice" "hi" =
        .blocked (PostMessage plainJSON (calmEnv "id1") carolWatchesAliceKnown
          "alice" "hi").state ∧
      usrBuf (PostMessage plainJSON (calmEnv "id1") carolWatchesAliceKnown "alice" "hi").state 0
        = some ["alice"] := by
  decide

/-! ## Reading the log -/

theorem decodeLoop_eq (c : Codec) (res : List String) (messages : List Message) :
    decodeLoop c res messages =
      messages ++ res.map (fun msg => (c.Unmarshal msg Message.zero).1) := by
  induction res generalizing messages with
  | nil => simp [decodeLoop]
  | cons msg rest ih => simp [decodeLoop, ih]

/-- When `LRANGE` works, `Messages` returns one message for every entry of the log,
in log order: what `json.Unmarshal` left in the zero message, error or not. -/
theorem Messages_eq_map (c : Codec) (s : GraphQLServer) :
    Messages c none s =
      .ok (s.redisClient.messages.map (fun msg => (c.Unmarshal msg Message.zero).1)) := by
  simp [Messages, Redis.LRange, decodeLoop_eq]

/-- Claim C8, the code at the failing input.  For every codec and log, `Messages`
returns as many messages as the log has entries.  On a log whose second entry is not
JSON it returns the zero message in that entry's place, where the spec asks for the
two decoded messages only. -/
theorem Messages_keeps_undecodable_entry :
    (∀ (c : Codec) (s : GraphQLServer) (ms : List Message),
        Messages c none s = .ok ms → ms.length = s.redisClient.messages.length) ∧
      plainJSON.Unmarshal "not json" Message.zero = (Message.zero, some "invalid JSON") ∧
      Messages plainJSON none corruptLog =
        .ok [⟨"id2", "2019-05-01T10:00:05Z", "hey", "bob"⟩, Message.zero,
             ⟨"id1", "2019-05-01T10:00:00Z", "yo", "alice"⟩] ∧
      decodedEntries plainJSON corruptLog.redisClient.messages =
        [⟨"id2", "2019-05-01T10:00:05Z", "hey", "bob"⟩,
         ⟨"id1", "2019-05-01T10:00:00Z", "yo", "alice"⟩] ∧
      Messages plainJSON none corruptLog ≠
        .ok (decodedEntries plainJSON corruptLog.redisClient.messages) := by
  refine ⟨?_, by decide, by decide, by decide, by decide⟩
  intro c s ms h
  rw [Messages_eq_map] at h
  simp only [Except.ok.injEq] at h
  rw [← h, List.length_map]

/-- Claim C9.  Let `PostMessage` return `m1`, and later, with the log untouched in
between, let `PostMessage` return `m2`; let decoding the serialized `m1` and `m2` give
them back.  Then `Messages` returns `m2`, then `m1`, then what it returned before the
two calls, in the same order. -/
theorem Messages_after_two_posts (c : Codec) (env1 env2 : PostEnv)
    (s0 s1 s1' s2 : GraphQLServer) (a1 t1 a2 t2 : String) (m1 m2 : Message)
    (prev : List Message)
    (hp1 : PostMessage c env1 s0 a1 t1 = .returned (.ok m1) s1)
    (hlog : s1'.redisClient.messages = s1.redisClient.messages)
    (hp2 : PostMessage c env2 s1' a2 t2 = .returned (.ok m2) s2)
    (hrt1 : (c.Unmarshal (c.Marshal m1) Message.zero).1 = m1)
    (hrt2 : (c.Unmarshal (c.Marshal m2) Message.zero).1 = m2)
    (hprev : Messages c none s0 = .ok prev) :
    Messages c none s2 = .ok (m2 :: m1 :: prev) := by
  obtain ⟨_, _, hl1, _, _⟩ := PostMessage_returned c env1 s0 s1 a1 t1 m1 hp1
  obtain ⟨_, _, hl2, _, _⟩ := PostMessage_returned c env2 s1' s2 a2 t2 m2 hp2
  rw [Messages_eq_map] at hprev ⊢
  simp only [Except.ok.injEq] at hprev
  rw [hl2, hlog, hl1]
  simp only [List.map_cons, hrt1, hrt2, hprev]

/-- A run of `Messages_after_two_posts` on a server with a message subscriber (bob)
and a user-joined subscriber (carol) whose consumers receive: alice posts, then bob
posts at once, both calls return, and the log is read. -/
theorem Messages_after_two_posts_witness :
    mapGet bobListensCarolWatches.messageChannels "bob" = some 0 ∧
      mapGet bobListensCarolWatches.userChannels "carol" = some 0 ∧
      PostMessage plainJSON (liveEnv "id1") bobListensCarolWatches "alice" "yo" =
        .returned (.ok ⟨"id1", "2019-05-01T10:00:00Z", "yo", "alice"⟩) bobBehindCarolWatches ∧
      PostMessage plainJSON (liveEnv "id2") bobBehindCarolWatches "bob" "hey" =
        .returned (.ok ⟨"id2", "2019-05-01T10:00:00Z", "hey", "bob"⟩)
          (PostMessage plainJSON (liveEnv "id2") bobBehindCarolWatches "bob" "hey").state ∧
      Messages plainJSON none
          (PostMessage plainJSON (liveEnv "id2") bobBehindCarolWatches "bob" "hey").state =
        .ok [⟨"id2", "2019-05-01T10:00:00Z", "hey", "bob"⟩,
             ⟨"id1", "2019-05-01T10:00:00Z", "yo", "alice"⟩] :=
  ⟨by decide, by decide, by decide, by decide,
    Messages_after_two_posts plainJSON (liveEnv "id1") (liveEnv "id2") bobListensCarolWatches
      bobBehindCarolWatches bobBehindCarolWatches _ "alice" "yo" "bob" "hey" _ _ []
      (by decide) rfl (by decide) (by decide) (by decide) (by decide)⟩

end Chat
